import Mathlib

/-!
Verification development for the prime-field arithmetic library (class
PrimeField and its helper functions fastFF, zpoly, lastNonZeroIndex).

The embedding represents JS bigints as ℤ and the modulus as ℕ.  JS `%` on
bigints truncates toward zero, which is `Int.tmod`; JS `/` on bigints is
`Int.tdiv`.  JS arrays are lists; an out-of-range read yields `undefined`,
and any arithmetic mixing a bigint with `undefined` throws a TypeError —
such reads are modelled with `List.get?`, and the TypeError is modelled as
`Except.error "TypeError"`.  Loops whose trip count is not structural are
given an explicit fuel argument, always called with provably sufficient
fuel (the lemmas below discharge sufficiency), so that every definition
computes by kernel reduction.
-/

namespace Galois

/-- `PrimeField.mod`: `value >= 0 ? value % p : ((value % p) + p) % p`. -/
def jsMod (p : ℕ) (v : ℤ) : ℤ :=
  if 0 ≤ v then v.tmod p else (v.tmod p + p).tmod p

/-- `PrimeField.add`. -/
def add (p : ℕ) (x y : ℤ) : ℤ := jsMod p (x + y)

/-- `PrimeField.sub`. -/
def sub (p : ℕ) (x y : ℤ) : ℤ := jsMod p (x - y)

/-- `PrimeField.mul`. -/
def mul (p : ℕ) (x y : ℤ) : ℤ := jsMod p (x * y)

/-- The `while (low > 1n)` loop of `PrimeField.inv` (extended Euclid).
State is `(lm, hm, low, high)`; `r = high / low` truncates as JS bigint
division does.  `low` decreases strictly, so fuel `low.toNat + 1` is
always enough. -/
def invLoop (p : ℕ) : ℕ → ℤ → ℤ → ℤ → ℤ → ℤ
  | 0, lm, _, _, _ => lm
  | fuel + 1, lm, hm, low, high =>
    if 1 < low then
      let r := high.tdiv low
      invLoop p fuel (hm - lm * r) lm (high - low * r) low
    else lm

/-- `PrimeField.inv`: `inv(0) = 0`, otherwise extended Euclid then a final
reduction. -/
def inv (p : ℕ) (a : ℤ) : ℤ :=
  if a = 0 then a
  else jsMod p (invLoop p ((jsMod p a).toNat + 1) 1 0 (jsMod p a) p)

/-- `PrimeField.div`: `mul(x, inv(y))`. -/
def div (p : ℕ) (x y : ℤ) : ℤ := mul p x (inv p y)

/-- The `while (exponent > 0n)` loop of `PrimeField.exp` (square and
multiply, with the in-loop `base === 0n` early return).  The exponent
halves each pass, so fuel `e + 1` is always enough. -/
def expLoop (p : ℕ) : ℕ → ℤ → ℤ → ℕ → ℤ
  | 0, _, result, _ => result
  | fuel + 1, base, result, e =>
    if e = 0 then result
    else if base = 0 then 0
    else expLoop p fuel (mul p base base)
      (if e % 2 = 1 then mul p result base else result) (e / 2)

/-- `PrimeField.exp`: reduce the base, reject `exp(0,0)`, flip a negative
exponent through `inv`, then square-and-multiply. -/
def exp (p : ℕ) (b e : ℤ) : Except String ℤ :=
  let base := jsMod p b
  if base = 0 ∧ e = 0 then .error "Base and exponent cannot be both 0"
  else if e < 0 then .ok (expLoop p ((-e).toNat + 1) (inv p base) 1 (-e).toNat)
  else .ok (expLoop p (e.toNat + 1) base 1 e.toNat)

/-! ### Basic facts about the reduction -/

theorem jsMod_eq_emod (p : ℕ) (v : ℤ) (hp : 0 < p) : jsMod p v = v % (p : ℤ) := by
  have hp' : (0 : ℤ) < (p : ℤ) := by exact_mod_cast hp
  unfold jsMod
  by_cases h : 0 ≤ v
  · simp only [h, if_true]
    exact Int.tmod_eq_emod h (le_of_lt hp')
  · simp only [h, if_false]
    push_neg at h
    -- v.tmod p = -((-v).tmod p), and (-v).tmod p = (-v) % p
    have hneg : v.tmod p = -((-v).tmod (p : ℤ)) := by
      have := Int.tmod_def v (p : ℤ)
      have h2 := Int.tmod_def (-v) (p : ℤ)
      have h3 : (-v).tdiv (p : ℤ) = -(v.tdiv (p : ℤ)) := Int.neg_tdiv v (p : ℤ)
      rw [this, h2, h3]; ring
    have hv' : (0 : ℤ) ≤ -v := by omega
    have e1 : (-v).tmod (p : ℤ) = (-v) % (p : ℤ) := Int.tmod_eq_emod hv' (le_of_lt hp')
    rw [hneg, e1]
    have h4 : (0 : ℤ) ≤ -((-v) % (p : ℤ)) + (p : ℤ) := by
      have := Int.emod_lt_of_pos (-v) hp'
      omega
    rw [Int.tmod_eq_emod h4 (le_of_lt hp')]
    have hmodeq : (-((-v) % (p : ℤ)) + (p : ℤ)) % (p : ℤ) = (-((-v) % (p : ℤ))) % (p : ℤ) := by
      simp
    rw [hmodeq]
    have m1 : (-v) % (p : ℤ) ≡ -v [ZMOD (p : ℤ)] := Int.emod_emod_of_dvd (-v) (dvd_refl _)
    have m2 : -((-v) % (p : ℤ)) ≡ v [ZMOD (p : ℤ)] := by simpa using m1.neg
    exact m2

theorem jsMod_nonneg (p : ℕ) (v : ℤ) (hp : 0 < p) : 0 ≤ jsMod p v := by
  rw [jsMod_eq_emod p v hp]
  exact Int.emod_nonneg v (by exact_mod_cast hp.ne')

theorem jsMod_lt (p : ℕ) (v : ℤ) (hp : 0 < p) : jsMod p v < p := by
  rw [jsMod_eq_emod p v hp]
  exact Int.emod_lt_of_pos v (by exact_mod_cast hp)

theorem jsMod_eq_of_range (p : ℕ) (v : ℤ) (hp : 0 < p) (h0 : 0 ≤ v) (h1 : v < p) :
    jsMod p v = v := by
  rw [jsMod_eq_emod p v hp]
  exact Int.emod_eq_of_lt h0 h1

/-- Casting a reduced value into `ZMod p` recovers the cast of the raw value. -/
theorem cast_jsMod (p : ℕ) (v : ℤ) (hp : 0 < p) :
    ((jsMod p v : ℤ) : ZMod p) = (v : ZMod p) := by
  rw [jsMod_eq_emod p v hp]
  rw [ZMod.intCast_eq_intCast_iff]
  exact Int.emod_emod_of_dvd v (dvd_refl _)

/-- Two canonical representatives with equal casts are equal. -/
theorem eq_of_cast_eq (p : ℕ) (a b : ℤ) (ha0 : 0 ≤ a) (ha1 : a < p)
    (hb0 : 0 ≤ b) (hb1 : b < p) (h : (a : ZMod p) = (b : ZMod p)) : a = b := by
  rw [ZMod.intCast_eq_intCast_iff] at h
  have h2 : a % (p : ℤ) = b % (p : ℤ) := h
  rwa [Int.emod_eq_of_lt ha0 ha1, Int.emod_eq_of_lt hb0 hb1] at h2

theorem cast_add (p : ℕ) (x y : ℤ) (hp : 0 < p) :
    ((add p x y : ℤ) : ZMod p) = (x : ZMod p) + (y : ZMod p) := by
  unfold add; rw [cast_jsMod p _ hp]; push_cast; ring

theorem cast_sub (p : ℕ) (x y : ℤ) (hp : 0 < p) :
    ((sub p x y : ℤ) : ZMod p) = (x : ZMod p) - (y : ZMod p) := by
  unfold sub; rw [cast_jsMod p _ hp]; push_cast; ring

theorem cast_mul (p : ℕ) (x y : ℤ) (hp : 0 < p) :
    ((mul p x y : ℤ) : ZMod p) = (x : ZMod p) * (y : ZMod p) := by
  unfold mul; rw [cast_jsMod p _ hp]; push_cast; ring

theorem jsMod_modEq (p : ℕ) (v : ℤ) (hp : 0 < p) : jsMod p v ≡ v [ZMOD (p : ℤ)] := by
  rw [jsMod_eq_emod p v hp]
  exact Int.emod_emod_of_dvd v (dvd_refl _)

theorem cast_ne_zero_of_range (p : ℕ) (x : ℤ) (h0 : 0 < x) (h1 : x < p) :
    (x : ZMod p) ≠ 0 := by
  intro h
  rw [ZMod.intCast_zmod_eq_zero_iff_dvd] at h
  have := Int.le_of_dvd h0 h
  omega

/-! ### Correctness of the extended-Euclid loop -/

/-- Invariant proof for `invLoop`: with coprime `(low, high)`, `1 < high`, and
the two Bezout congruences, the loop returns a modular inverse witness for `a`. -/
theorem invLoop_bezout (p : ℕ) (a : ℤ) :
    ∀ fuel (lm hm low high : ℤ), low.toNat < fuel → 0 ≤ low → 1 < high →
      IsCoprime low high →
      lm * a ≡ low [ZMOD (p : ℤ)] → hm * a ≡ high [ZMOD (p : ℤ)] →
      invLoop p fuel lm hm low high * a ≡ 1 [ZMOD (p : ℤ)] := by
  intro fuel
  induction fuel with
  | zero => intro lm hm low high hfuel; omega
  | succ f ih =>
    intro lm hm low high hfuel hlow0 hhigh hcop hlm hhm
    by_cases hl : 1 < low
    · rw [invLoop, if_pos hl]
      have hlowpos : (0 : ℤ) < low := by omega
      have htmod : high - low * high.tdiv low = high.tmod low := by
        rw [Int.tmod_def]
      have hnw0 : 0 ≤ high - low * high.tdiv low := by
        rw [htmod]; exact Int.tmod_nonneg low (by omega)
      have hnwlt : high - low * high.tdiv low < low := by
        rw [htmod]; exact Int.tmod_lt_of_pos high hlowpos
      apply ih
      · omega
      · exact hnw0
      · exact hl
      · -- IsCoprime (high - low * r) low from IsCoprime low high
        have := hcop.symm.add_mul_left_left (-high.tdiv low)
        have heq : high + low * -high.tdiv low = high - low * high.tdiv low := by ring
        rwa [heq] at this
      · -- (hm - lm * r) * a ≡ high - low * r
        have h1 := hhm.sub (hlm.mul_left (high.tdiv low))
        have heq : hm * a - high.tdiv low * (lm * a) = (hm - lm * high.tdiv low) * a := by
          ring
        have heq2 : high - high.tdiv low * low = high - low * high.tdiv low := by ring
        rw [heq, heq2] at h1
        exact h1
      · exact hlm
    · rw [invLoop, if_neg hl]
      -- low is 0 or 1; low = 0 contradicts coprimality with high > 1
      rcases (by omega : low = 0 ∨ low = 1) with h | h
      · subst h
        have := isCoprime_zero_left.mp hcop
        rw [Int.isUnit_iff] at this
        omega
      · subst h; simpa using hlm

/-- For `a` coprime to a modulus `p > 1`, `inv` returns a Bezout inverse. -/
theorem inv_modEq (p : ℕ) (hp : 1 < p) (a : ℤ) (hcop : IsCoprime a (p : ℤ)) :
    inv p a * a ≡ 1 [ZMOD (p : ℤ)] := by
  have hp0 : 0 < p := by omega
  have ha : a ≠ 0 := by
    intro h; subst h
    have := isCoprime_zero_left.mp hcop
    rw [Int.isUnit_iff] at this
    omega
  rw [inv, if_neg ha]
  have hmod := jsMod_modEq p a hp0
  have hcast := jsMod_eq_emod p a hp0
  have hbez : invLoop p ((jsMod p a).toNat + 1) 1 0 (jsMod p a) p * a ≡ 1 [ZMOD (p : ℤ)] := by
    apply invLoop_bezout p a
    · omega
    · exact jsMod_nonneg p a hp0
    · exact_mod_cast hp
    · -- IsCoprime (jsMod p a) p: jsMod p a = a + p * k for some k
      have : jsMod p a = a + (p : ℤ) * (-(a / (p : ℤ))) := by
        rw [hcast]; rw [Int.emod_def]; ring
      rw [this]
      exact hcop.add_mul_left_left _
    · simpa using hmod.symm
    · simpa using (Int.modEq_iff_dvd.mpr ⟨1, by ring⟩ : (0 : ℤ) ≡ (p : ℤ) [ZMOD (p : ℤ)])
  calc jsMod p (invLoop p ((jsMod p a).toNat + 1) 1 0 (jsMod p a) p) * a
      ≡ invLoop p ((jsMod p a).toNat + 1) 1 0 (jsMod p a) p * a [ZMOD (p : ℤ)] :=
        (jsMod_modEq p _ hp0).mul_right a
    _ ≡ 1 [ZMOD (p : ℤ)] := hbez

theorem inv_nonneg (p : ℕ) (hp : 0 < p) (a : ℤ) : 0 ≤ inv p a := by
  rw [inv]
  by_cases h : a = 0
  · simp [h]
  · rw [if_neg h]; exact jsMod_nonneg p _ hp

theorem inv_lt (p : ℕ) (hp : 0 < p) (a : ℤ) : inv p a < p := by
  rw [inv]
  by_cases h : a = 0
  · rw [if_pos h, h]; exact_mod_cast hp
  · rw [if_neg h]; exact jsMod_lt p _ hp

theorem isCoprime_of_prime_range (p : ℕ) (hp : p.Prime) (x : ℤ) (h0 : 0 < x)
    (h1 : x < p) : IsCoprime x (p : ℤ) := by
  have hpz : Prime ((p : ℕ) : ℤ) := Nat.prime_iff_prime_int.mp hp
  have hnd : ¬ (p : ℤ) ∣ x := by
    intro hd
    have := Int.le_of_dvd h0 hd
    omega
  exact ((Prime.coprime_iff_not_dvd hpz).mpr hnd).symm

/-! ### Correctness of the square-and-multiply loop -/

theorem expLoop_range (p : ℕ) (hp : 1 < p) :
    ∀ fuel (base result : ℤ) (e : ℕ), 0 ≤ result → result < p →
      0 ≤ expLoop p fuel base result e ∧ expLoop p fuel base result e < p := by
  intro fuel
  induction fuel with
  | zero => intro base result e h0 h1; exact ⟨h0, h1⟩
  | succ f ih =>
    intro base result e h0 h1
    rw [expLoop]
    by_cases he : e = 0
    · simpa [he] using ⟨h0, h1⟩
    · rw [if_neg he]
      by_cases hb : base = 0
      · rw [if_pos hb]
        constructor
        · omega
        · exact_mod_cast (show 0 < p by omega)
      · rw [if_neg hb]
        apply ih
        · by_cases ho : e % 2 = 1
          · simpa [ho] using jsMod_nonneg p _ (by omega)
          · simpa [ho] using h0
        · by_cases ho : e % 2 = 1
          · simpa [ho] using jsMod_lt p _ (by omega)
          · simpa [ho] using h1

theorem expLoop_cast (p : ℕ) (hp : p.Prime) :
    ∀ fuel (base result : ℤ) (e : ℕ), e < fuel → 0 < base → base < p →
      ((expLoop p fuel base result e : ℤ) : ZMod p) =
        (result : ZMod p) * (base : ZMod p) ^ e := by
  intro fuel
  induction fuel with
  | zero => intro base result e hfuel; omega
  | succ f ih =>
    intro base result e hfuel hb0 hb1
    have hp0 : 0 < p := hp.pos
    rw [expLoop]
    by_cases he : e = 0
    · simp [he]
    · rw [if_neg he, if_neg (by omega : ¬ base = 0)]
      have hbz : (base : ZMod p) ≠ 0 := cast_ne_zero_of_range p base hb0 hb1
      haveI : Fact p.Prime := ⟨hp⟩
      have hsq0 : ((mul p base base : ℤ) : ZMod p) = (base : ZMod p) * (base : ZMod p) :=
        cast_mul p base base hp0
      have hsqz : ((mul p base base : ℤ) : ZMod p) ≠ 0 := by
        rw [hsq0]; exact mul_ne_zero hbz hbz
      have hsqpos : 0 < mul p base base := by
        have h0 : 0 ≤ mul p base base := jsMod_nonneg p (base * base) hp0
        rcases h0.lt_or_eq with h | h
        · exact h
        · exfalso; apply hsqz; rw [← h]; norm_num
      have := ih (mul p base base)
        (if e % 2 = 1 then mul p result base else result) (e / 2)
        (by omega) hsqpos (jsMod_lt p _ hp0)
      rw [this, hsq0]
      have hcastr : ((if e % 2 = 1 then mul p result base else result : ℤ) : ZMod p) =
          (result : ZMod p) * (base : ZMod p) ^ (e % 2) := by
        by_cases ho : e % 2 = 1
        · rw [if_pos ho, ho, cast_mul p _ _ hp0, pow_one]
        · have : e % 2 = 0 := by omega
          rw [if_neg ho, this, pow_zero, mul_one]
      rw [hcastr]
      have hpow : ((base : ZMod p) * (base : ZMod p)) ^ (e / 2) =
          (base : ZMod p) ^ (2 * (e / 2)) := by
        rw [← sq, ← pow_mul]
      rw [hpow, mul_assoc, ← pow_add]
      congr 2
      omega

theorem expLoop_zero_base (p : ℕ) (f : ℕ) (result : ℤ) (e : ℕ) (he : e ≠ 0) :
    expLoop p (f + 1) 0 result e = 0 := by
  rw [expLoop, if_neg he, if_pos rfl]

/-- Successful `exp` with nonnegative exponent returns the canonical power. -/
theorem exp_ok_val (p : ℕ) (hp : p.Prime) (b e : ℤ) (hb0 : 0 ≤ b) (hb1 : b < p)
    (he : 0 ≤ e) (hne : ¬(b = 0 ∧ e = 0)) :
    exp p b e = .ok (jsMod p (b ^ e.toNat)) := by
  have hp0 : 0 < p := hp.pos
  have hp1 : 1 < p := hp.one_lt
  have hbase : jsMod p b = b := jsMod_eq_of_range p b hp0 hb0 hb1
  rw [exp]
  simp only [hbase]
  rw [if_neg hne, if_neg (by omega : ¬ e < 0)]
  rcases hb0.lt_or_eq with hbpos | hbzero
  · -- positive base: use the cast lemma and canonicity
    congr 1
    apply eq_of_cast_eq p _ _
      ((expLoop_range p hp1 (e.toNat + 1) b 1 e.toNat (by norm_num)
        (by exact_mod_cast hp1)).1)
      ((expLoop_range p hp1 (e.toNat + 1) b 1 e.toNat (by norm_num)
        (by exact_mod_cast hp1)).2)
      (jsMod_nonneg p _ hp0) (jsMod_lt p _ hp0)
    rw [expLoop_cast p hp (e.toNat + 1) b 1 e.toNat (by omega) hbpos hb1]
    rw [cast_jsMod p _ hp0]
    push_cast
    ring
  · -- zero base, so e > 0 and the loop returns 0
    have hez : e ≠ 0 := fun h => hne ⟨hbzero.symm, h⟩
    have het : e.toNat ≠ 0 := by omega
    rw [← hbzero, expLoop_zero_base p e.toNat 1 e.toNat het]
    rw [zero_pow het, jsMod_eq_of_range p 0 hp0 le_rfl (by exact_mod_cast hp0)]

/-- C3: for a prime modulus `p`, `inv(0) = 0`, and for every `x` with
`0 < x < p`, `inv(x)` lies in `[0, p)` and `mul(x, inv(x)) = 1`. -/
theorem claim3_inv_correct (p : ℕ) (hp : p.Prime) :
    inv p 0 = 0 ∧
    ∀ x : ℤ, 0 < x → x < p →
      0 ≤ inv p x ∧ inv p x < p ∧ mul p x (inv p x) = 1 := by
  have hp1 : 1 < p := hp.one_lt
  have hp0 : 0 < p := hp.pos
  refine ⟨by simp [inv], fun x h0 h1 => ⟨inv_nonneg p hp0 x, inv_lt p hp0 x, ?_⟩⟩
  have hcop := isCoprime_of_prime_range p hp x h0 h1
  have hbez := inv_modEq p hp1 x hcop
  have hcong : x * inv p x ≡ 1 [ZMOD (p : ℤ)] := by
    have heq : x * inv p x = inv p x * x := by ring
    rw [heq]; exact hbez
  show jsMod p (x * inv p x) = 1
  rw [jsMod_eq_emod p _ hp0]
  have h2 : (x * inv p x) % (p : ℤ) = 1 % (p : ℤ) := hcong
  rw [h2]
  exact Int.emod_eq_of_lt (by norm_num) (by exact_mod_cast hp1)

/-- Witness for C3 at `p = 5`, `x = 3`. -/
theorem claim3_witness : Nat.Prime 5 ∧ inv 5 0 = 0 ∧ mul 5 3 (inv 5 3) = 1 :=
  ⟨by norm_num, (claim3_inv_correct 5 (by norm_num)).1,
    ((claim3_inv_correct 5 (by norm_num)).2 3 (by norm_num) (by norm_num)).2.2⟩

/-- C10: every arithmetic operation returns a canonical value in `[0, p)`,
for arbitrary integer inputs (negative and out of range included); for `exp`
this holds in every successful case. -/
theorem claim10_canonical (p : ℕ) (hp : p.Prime) (x y : ℤ) :
    (0 ≤ jsMod p x ∧ jsMod p x < p) ∧
    (0 ≤ add p x y ∧ add p x y < p) ∧
    (0 ≤ sub p x y ∧ sub p x y < p) ∧
    (0 ≤ mul p x y ∧ mul p x y < p) ∧
    (0 ≤ div p x y ∧ div p x y < p) ∧
    (0 ≤ inv p x ∧ inv p x < p) ∧
    (∀ v, exp p x y = .ok v → 0 ≤ v ∧ v < p) := by
  have hp0 : 0 < p := hp.pos
  have hp1 : 1 < p := hp.one_lt
  refine ⟨⟨jsMod_nonneg p x hp0, jsMod_lt p x hp0⟩,
    ⟨jsMod_nonneg p _ hp0, jsMod_lt p _ hp0⟩,
    ⟨jsMod_nonneg p _ hp0, jsMod_lt p _ hp0⟩,
    ⟨jsMod_nonneg p _ hp0, jsMod_lt p _ hp0⟩,
    ⟨jsMod_nonneg p _ hp0, jsMod_lt p _ hp0⟩,
    ⟨inv_nonneg p hp0 x, inv_lt p hp0 x⟩, ?_⟩
  intro v hv
  rw [exp] at hv
  by_cases h1 : jsMod p x = 0 ∧ y = 0
  · rw [if_pos h1] at hv; exact absurd hv (by simp)
  · rw [if_neg h1] at hv
    by_cases h2 : y < 0
    · rw [if_pos h2] at hv
      have := Except.ok.inj hv
      rw [← this]
      exact expLoop_range p hp1 _ _ 1 _ (by norm_num) (by exact_mod_cast hp1)
    · rw [if_neg h2] at hv
      have := Except.ok.inj hv
      rw [← this]
      exact expLoop_range p hp1 _ _ 1 _ (by norm_num) (by exact_mod_cast hp1)

/-- Witness for C10 at `p = 7`, `x = -3`, `y = 10`. -/
theorem claim10_witness : Nat.Prime 7 ∧ (0 ≤ mul 7 (-3) 10 ∧ mul 7 (-3) 10 < 7) :=
  ⟨by norm_num, (claim10_canonical 7 (by norm_num) (-3) 10).2.2.2.1⟩

/-- C4: `exp(b, e)` errors exactly on `b = 0, e = 0`; returns 0 for
`b = 0, e > 0`; returns 1 for `e = 0, b ≠ 0`; delegates a negative exponent
to `exp(inv(b), -e)`; and each successful nonnegative-exponent case returns
`b ^ e mod p`. -/
theorem claim4_exp (p : ℕ) (hp : p.Prime) (b e : ℤ) (hb0 : 0 ≤ b) (hb1 : b < p) :
    ((∃ msg, exp p b e = .error msg) ↔ b = 0 ∧ e = 0) ∧
    (b = 0 → 0 < e → exp p b e = .ok 0) ∧
    (b ≠ 0 → e = 0 → exp p b e = .ok 1) ∧
    (e < 0 → exp p b e = exp p (inv p b) (-e)) ∧
    (0 ≤ e → ¬(b = 0 ∧ e = 0) → exp p b e = .ok (jsMod p (b ^ e.toNat))) := by
  have hp0 : 0 < p := hp.pos
  have hbase : jsMod p b = b := jsMod_eq_of_range p b hp0 hb0 hb1
  refine ⟨?_, ?_, ?_, ?_, fun he hne => exp_ok_val p hp b e hb0 hb1 he hne⟩
  · constructor
    · rintro ⟨msg, hmsg⟩
      rw [exp] at hmsg
      simp only [hbase] at hmsg
      by_cases h : b = 0 ∧ e = 0
      · exact h
      · rw [if_neg h] at hmsg
        by_cases h2 : e < 0
        · rw [if_pos h2] at hmsg; exact absurd hmsg (by simp)
        · rw [if_neg h2] at hmsg; exact absurd hmsg (by simp)
    · rintro ⟨hb, he⟩
      refine ⟨"Base and exponent cannot be both 0", ?_⟩
      rw [exp]
      simp only [hbase]
      rw [if_pos ⟨hb, he⟩]
  · intro hb he
    have := exp_ok_val p hp b e hb0 hb1 (le_of_lt he) (fun h => by omega)
    rw [this, hb, zero_pow (by omega : e.toNat ≠ 0)]
    rw [jsMod_eq_of_range p 0 hp0 le_rfl (by exact_mod_cast hp0)]
  · intro hb he
    have := exp_ok_val p hp b e hb0 hb1 (le_of_eq he.symm) (fun h => hb h.1)
    rw [this, he]
    norm_num
    exact jsMod_eq_of_range p 1 hp0 (by norm_num) (by exact_mod_cast hp.one_lt)
  · intro he
    rw [exp, exp]
    simp only [hbase]
    have hinv0 : 0 ≤ inv p b := inv_nonneg p hp0 b
    have hinv1 : inv p b < p := inv_lt p hp0 b
    have hbase' : jsMod p (inv p b) = inv p b := jsMod_eq_of_range p _ hp0 hinv0 hinv1
    simp only [hbase']
    rw [if_neg (by omega : ¬ (b = 0 ∧ e = 0)), if_pos he]
    rw [if_neg (by omega : ¬ (inv p b = 0 ∧ -e = 0)), if_neg (by omega : ¬ -e < 0)]

/-! ### Power series (`PrimeField.getPowerSeries`) -/

/-- The `for (i = 1; i < length; i++)` fill loop of `getPowerSeries`:
`powers[i] = mul(powers[i-1], seed)`, carried through `prev`. -/
def psAux (p : ℕ) (seed : ℤ) : ℤ → ℕ → List ℤ
  | _, 0 => []
  | prev, k + 1 => mul p prev seed :: psAux p seed (mul p prev seed) k

/-- `PrimeField.getPowerSeries`: `powers[0] = 1n` is written unconditionally,
which in JS grows a length-0 array to length 1, so the result always starts
with `1` and has `max length 1` entries. -/
def getPowerSeries (p : ℕ) (seed : ℤ) (length : ℕ) : List ℤ :=
  1 :: psAux p seed 1 (length - 1)

theorem psAux_length (p : ℕ) (seed : ℤ) :
    ∀ (k : ℕ) (prev : ℤ), (psAux p seed prev k).length = k := by
  intro k
  induction k with
  | zero => intro prev; rfl
  | succ n ih => intro prev; simp [psAux, ih]

theorem psAux_getD (p : ℕ) (hp : 1 < p) (seed : ℤ) :
    ∀ (k : ℕ) (prev : ℤ) (i : ℕ), i < k → 0 ≤ prev → prev < p →
      0 ≤ (psAux p seed prev k).getD i 0 ∧ (psAux p seed prev k).getD i 0 < p ∧
      (((psAux p seed prev k).getD i 0 : ℤ) : ZMod p) =
        (prev : ZMod p) * (seed : ZMod p) ^ (i + 1) := by
  have hp0 : 0 < p := by omega
  intro k
  induction k with
  | zero => intro prev i hi; omega
  | succ n ih =>
    intro prev i hi h0 h1
    match i with
    | 0 =>
      refine ⟨jsMod_nonneg p _ hp0, jsMod_lt p _ hp0, ?_⟩
      show ((mul p prev seed : ℤ) : ZMod p) = _
      rw [cast_mul p _ _ hp0, pow_one]
    | Nat.succ j =>
      have := ih (mul p prev seed) j (by omega)
        (jsMod_nonneg p _ hp0) (jsMod_lt p _ hp0)
      refine ⟨this.1, this.2.1, ?_⟩
      have h2 := this.2.2
      rw [cast_mul p _ _ hp0] at h2
      show (((psAux p seed (mul p prev seed) n).getD j 0 : ℤ) : ZMod p) = _
      rw [h2, show j.succ = j + 1 from rfl, pow_succ, pow_succ]
      ring

/-- C9 counterexample: `getPowerSeries(3, 0)` has length 1, not 0 — the
unconditional `powers[0] = 1n` write extends the empty array. -/
theorem claim9_counterexample :
    getPowerSeries 5 3 0 = [1] ∧ (getPowerSeries 5 3 0).length ≠ 0 := by
  constructor
  · rfl
  · decide

/-- C9 (amended): for every length `n ≥ 1` the result has length exactly `n`
and entry `i` equals `s^i mod p`; for `n = 0` the code instead returns the
length-1 vector `[1]`. -/
theorem claim9_powerSeries (p : ℕ) (hp : 1 < p) (s : ℤ) (_hs0 : 0 ≤ s) (_hs1 : s < p)
    (n : ℕ) (hn : 1 ≤ n) :
    ((getPowerSeries p s n).length = n ∧
      ∀ i, i < n → (getPowerSeries p s n).getD i 0 = jsMod p (s ^ i)) ∧
    getPowerSeries p s 0 = [1] := by
  have hp0 : 0 < p := by omega
  refine ⟨⟨?_, ?_⟩, rfl⟩
  · simp [getPowerSeries, psAux_length]
    omega
  · intro i hi
    match i with
    | 0 =>
      show (1 : ℤ) = jsMod p (s ^ 0)
      rw [pow_zero, jsMod_eq_of_range p 1 hp0 (by norm_num) (by exact_mod_cast hp)]
    | Nat.succ j =>
      show (psAux p s 1 (n - 1)).getD j 0 = jsMod p (s ^ (j + 1))
      have h := psAux_getD p hp s (n - 1) 1 j (by omega) (by norm_num)
        (by exact_mod_cast hp)
      apply eq_of_cast_eq p _ _ h.1 h.2.1 (jsMod_nonneg p _ hp0) (jsMod_lt p _ hp0)
      rw [h.2.2, cast_jsMod p _ hp0]
      push_cast
      ring

/-- Witness for C9 at `p = 5`, `s = 3`, `n = 5`: the series is `[1,3,9,27,81]`
reduced, i.e. entry `i` is `3^i mod 5`. -/
theorem claim9_witness :
    (1 < 5 ∧ (0 : ℤ) ≤ 3 ∧ (3 : ℤ) < 5 ∧ 1 ≤ 5) ∧
    (getPowerSeries 5 3 5).length = 5 ∧
    (getPowerSeries 5 3 5).getD 4 0 = jsMod 5 (3 ^ 4) :=
  ⟨⟨by norm_num, by norm_num, by norm_num, by norm_num⟩,
    ((claim9_powerSeries 5 (by norm_num) 3 (by norm_num) (by norm_num) 5
      (by norm_num)).1).1,
    ((claim9_powerSeries 5 (by norm_num) 3 (by norm_num) (by norm_num) 5
      (by norm_num)).1).2 4 (by norm_num)⟩

/-! ### Montgomery batch inversion (`PrimeField.invVectorElements`) -/

/-- JS `v || 1n` on a bigint: `0n` is falsy. -/
def or1 (v : ℤ) : ℤ := if v = 0 then 1 else v

/-- Forward pass of `invVectorElements`: `result[i] = last` then
`last = mod(last * (values[i] || 1n))`.  Returns the prefix-product list and
the final `last`. -/
def batchFwd (p : ℕ) : ℤ → List ℤ → List ℤ × ℤ
  | last, [] => ([], last)
  | last, v :: vs =>
    let r := batchFwd p (mul p last (or1 v)) vs
    (last :: r.1, r.2)

/-- Backward pass of `invVectorElements`, processing the high indices first:
`result[i] = mod(values[i] ? result[i] * inv : 0n)` then
`inv = mul(inv, values[i] || 1n)`.  Returns the output list and the final
`inv` accumulator. -/
def batchBwd (p : ℕ) : List ℤ → List ℤ → ℤ → List ℤ × ℤ
  | [], _, k => ([], k)
  | _ :: _, [], k => ([], k)
  | v :: vs, r :: rs, k =>
    let t := batchBwd p vs rs k
    (jsMod p (if v = 0 then 0 else r * t.2) :: t.1, mul p t.2 (or1 v))

/-- `PrimeField.invVectorElements`: forward pass from `last = 1n`, one field
inversion of the running product, then the backward pass. -/
def invVectorElements (p : ℕ) (values : List ℤ) : List ℤ :=
  let f := batchFwd p 1 values
  (batchBwd p values f.1 (inv p f.2)).1

theorem batchFwd_snd_range (p : ℕ) (hp : 0 < p) :
    ∀ (v : List ℤ) (last : ℤ), 0 ≤ last → last < p →
      0 ≤ (batchFwd p last v).2 ∧ (batchFwd p last v).2 < p := by
  intro v
  induction v with
  | nil => intro last h0 h1; exact ⟨h0, h1⟩
  | cons x vs ih =>
    intro last h0 h1
    exact ih (mul p last (or1 x)) (jsMod_nonneg p _ hp) (jsMod_lt p _ hp)

theorem batchFwd_snd_cast (p : ℕ) (hp : 0 < p) :
    ∀ (v : List ℤ) (last : ℤ),
      (((batchFwd p last v).2 : ℤ) : ZMod p) =
        (last : ZMod p) * (((v.map or1).prod : ℤ) : ZMod p) := by
  intro v
  induction v with
  | nil => intro last; simp [batchFwd]
  | cons x vs ih =>
    intro last
    show (((batchFwd p (mul p last (or1 x)) vs).2 : ℤ) : ZMod p) = _
    rw [ih (mul p last (or1 x)), cast_mul p _ _ hp]
    simp only [List.map_cons, List.prod_cons]
    push_cast
    ring

theorem cast_or1_prod_ne_zero (p : ℕ) (hp : p.Prime) :
    ∀ (v : List ℤ), (∀ x ∈ v, 0 ≤ x ∧ x < p) →
      (((v.map or1).prod : ℤ) : ZMod p) ≠ 0 := by
  haveI : Fact p.Prime := ⟨hp⟩
  intro v
  induction v with
  | nil => intro _; simp
  | cons x vs ih =>
    intro hv
    simp only [List.map_cons, List.prod_cons]
    rw [Int.cast_mul]
    apply mul_ne_zero
    · by_cases hx : x = 0
      · simp [or1, hx]
      · rw [or1, if_neg hx]
        have := hv x (by simp)
        exact cast_ne_zero_of_range p x (by omega) this.2
    · exact ih (fun y hy => hv y (by simp [hy]))

theorem batchBwd_spec (p : ℕ) (hp : p.Prime) :
    ∀ (v : List ℤ) (L k : ℤ), (∀ x ∈ v, 0 ≤ x ∧ x < p) →
      ((k : ZMod p) * ((L : ZMod p) * (((v.map or1).prod : ℤ) : ZMod p)) = 1) →
      (batchBwd p v (batchFwd p L v).1 k).1 = v.map (inv p) ∧
      (((batchBwd p v (batchFwd p L v).1 k).2 : ℤ) : ZMod p) =
        (k : ZMod p) * (((v.map or1).prod : ℤ) : ZMod p) := by
  haveI : Fact p.Prime := ⟨hp⟩
  have hp0 : 0 < p := hp.pos
  intro v
  induction v with
  | nil =>
    intro L k _ _
    constructor
    · rfl
    · show ((k : ℤ) : ZMod p) = _
      simp
  | cons x vs ih =>
    intro L k hv hunit
    have hx := hv x (by simp)
    have hvs : ∀ y ∈ vs, 0 ≤ y ∧ y < p := fun y hy => hv y (by simp [hy])
    -- unfold one step of both passes
    have hfwd : (batchFwd p L (x :: vs)).1 =
        L :: (batchFwd p (mul p L (or1 x)) vs).1 := rfl
    have hprod : (((((x :: vs).map or1).prod : ℤ)) : ZMod p) =
        ((or1 x : ℤ) : ZMod p) * (((vs.map or1).prod : ℤ) : ZMod p) := by
      simp only [List.map_cons, List.prod_cons]
      push_cast
      ring
    have hunit' : (k : ZMod p) * (((mul p L (or1 x) : ℤ) : ZMod p) *
        (((vs.map or1).prod : ℤ) : ZMod p)) = 1 := by
      rw [cast_mul p _ _ hp0]
      rw [hprod] at hunit
      calc (k : ZMod p) * ((L : ZMod p) * ((or1 x : ℤ) : ZMod p) *
            (((vs.map or1).prod : ℤ) : ZMod p))
          = (k : ZMod p) * ((L : ZMod p) * (((or1 x : ℤ) : ZMod p) *
            (((vs.map or1).prod : ℤ) : ZMod p))) := by ring
        _ = 1 := hunit
    have iht := ih (mul p L (or1 x)) k hvs hunit'
    rw [hfwd]
    show (jsMod p (if x = 0 then 0 else
        L * (batchBwd p vs (batchFwd p (mul p L (or1 x)) vs).1 k).2) ::
        (batchBwd p vs (batchFwd p (mul p L (or1 x)) vs).1 k).1,
      mul p (batchBwd p vs (batchFwd p (mul p L (or1 x)) vs).1 k).2 (or1 x)).1 =
        (x :: vs).map (inv p) ∧ _
    constructor
    · simp only [List.map_cons]
      rw [iht.1]
      congr 1
      -- head element equals inv p x
      by_cases hx0 : x = 0
      · rw [if_pos hx0, hx0]
        show jsMod p 0 = inv p 0
        rw [inv, if_pos rfl]
        simp [jsMod]
      · rw [if_neg hx0]
        have hxpos : 0 < x := by
          rcases hx.1.lt_or_eq with h | h
          · exact h
          · exact absurd h.symm hx0
        have hxz : (x : ZMod p) ≠ 0 := cast_ne_zero_of_range p x hxpos hx.2
        -- cast of head
        have hw : ((jsMod p
            (L * (batchBwd p vs (batchFwd p (mul p L (or1 x)) vs).1 k).2) : ℤ) :
            ZMod p) * (x : ZMod p) = 1 := by
          rw [cast_jsMod p _ hp0]
          push_cast
          rw [iht.2]
          rw [hprod] at hunit
          simp only [or1, if_neg hx0] at hunit
          calc (L : ZMod p) * ((k : ZMod p) *
                (((vs.map or1).prod : ℤ) : ZMod p)) * (x : ZMod p)
              = (k : ZMod p) * ((L : ZMod p) * ((x : ZMod p) *
                (((vs.map or1).prod : ℤ) : ZMod p))) := by ring
            _ = 1 := hunit
        have hi : ((inv p x : ℤ) : ZMod p) * (x : ZMod p) = 1 := by
          have := inv_modEq p hp.one_lt x (isCoprime_of_prime_range p hp x hxpos hx.2)
          have hcast := (ZMod.intCast_eq_intCast_iff _ _ _).mpr this
          push_cast at hcast
          exact hcast
        have heads : ((jsMod p
            (L * (batchBwd p vs (batchFwd p (mul p L (or1 x)) vs).1 k).2) : ℤ) :
            ZMod p) = ((inv p x : ℤ) : ZMod p) :=
          mul_right_cancel₀ hxz (by rw [hw, hi])
        exact eq_of_cast_eq p _ _ (jsMod_nonneg p _ hp0) (jsMod_lt p _ hp0)
          (inv_nonneg p hp0 x) (inv_lt p hp0 x) heads
    · show ((mul p (batchBwd p vs (batchFwd p (mul p L (or1 x)) vs).1 k).2
          (or1 x) : ℤ) : ZMod p) = _
      rw [cast_mul p _ _ hp0, iht.2, hprod]
      ring

theorem invVectorElements_map (p : ℕ) (hp : p.Prime) (v : List ℤ)
    (hv : ∀ x ∈ v, 0 ≤ x ∧ x < p) :
    invVectorElements p v = v.map (inv p) := by
  have hp0 : 0 < p := hp.pos
  have hmain : invVectorElements p v = v.map (inv p) := by
    have hsndr := batchFwd_snd_range p hp0 v 1 (by norm_num) (by exact_mod_cast hp.one_lt)
    have hsndc := batchFwd_snd_cast p hp0 v 1
    have hprodz := cast_or1_prod_ne_zero p hp v hv
    have hsndz : (batchFwd p 1 v).2 ≠ 0 := by
      intro h
      apply hprodz
      have hz : (((batchFwd p 1 v).2 : ℤ) : ZMod p) = 0 := by rw [h]; norm_num
      rw [hsndc] at hz
      rwa [Int.cast_one, one_mul] at hz
    have hsndpos : 0 < (batchFwd p 1 v).2 := by
      rcases hsndr.1.lt_or_eq with h | h
      · exact h
      · exact absurd h.symm hsndz
    have hk : ((inv p (batchFwd p 1 v).2 : ℤ) : ZMod p) *
        (((batchFwd p 1 v).2 : ℤ) : ZMod p) = 1 := by
      have := inv_modEq p hp.one_lt (batchFwd p 1 v).2
        (isCoprime_of_prime_range p hp _ hsndpos hsndr.2)
      have hcast := (ZMod.intCast_eq_intCast_iff _ _ _).mpr this
      push_cast at hcast
      exact hcast
    have hunit : ((inv p (batchFwd p 1 v).2 : ℤ) : ZMod p) *
        (((1 : ℤ) : ZMod p) * (((v.map or1).prod : ℤ) : ZMod p)) = 1 := by
      rw [hsndc] at hk
      exact hk
    exact (batchBwd_spec p hp v 1 (inv p (batchFwd p 1 v).2) hv hunit).1
  exact hmain

/-- C2: for a prime modulus and a vector of canonical elements, Montgomery
batch inversion returns the elementwise `inv`, with `inv(0) = 0` (zero
entries map to zero, no error). -/
theorem claim2_batchInv (p : ℕ) (hp : p.Prime) (v : List ℤ)
    (hv : ∀ x ∈ v, 0 ≤ x ∧ x < p) :
    invVectorElements p v = v.map (inv p) ∧
    (invVectorElements p v).length = v.length ∧
    inv p 0 = 0 := by
  have hmain := invVectorElements_map p hp v hv
  refine ⟨hmain, ?_, by simp [inv]⟩
  rw [hmain, List.length_map]

/-- Witness for C2 at `p = 5`, `v = [2, 0, 3]`. -/
theorem claim2_witness :
    Nat.Prime 5 ∧ (∀ x ∈ ([2, 0, 3] : List ℤ), 0 ≤ x ∧ x < 5) ∧
    invVectorElements 5 [2, 0, 3] = ([2, 0, 3] : List ℤ).map (inv 5) :=
  ⟨by norm_num, by decide, (claim2_batchInv 5 (by norm_num) [2, 0, 3] (by decide)).1⟩

/-! ### Vector and matrix operations without shape checks -/

/-- JS array read `l[i]`: out of range yields `undefined`, and the arithmetic
all these call sites feed it into then throws a TypeError. -/
def jsGetE {α : Type} (l : List α) (i : ℕ) : Except String α :=
  match l.get? i with
  | some x => .ok x
  | none => .error "TypeError"

/-- The accumulation loop of `PrimeField.combineVectors`:
`result = mod(result + a[i] * b[i])` for `i < a.length`, with no length
check (`b[i]` may be an out-of-range read). -/
def cvLoop (p : ℕ) (b : List ℤ) : ℤ → ℕ → List ℤ → Except String ℤ
  | acc, _, [] => .ok acc
  | acc, i, x :: rest =>
    match jsGetE b i with
    | .error e => .error e
    | .ok y => cvLoop p b (jsMod p (acc + x * y)) (i + 1) rest

/-- `PrimeField.combineVectors`. -/
def combineVectors (p : ℕ) (a b : List ℤ) : Except String ℤ := cvLoop p b 0 0 a

/-- The loop of `PrimeField.vectorElementsOp`: `result[i] = op(a[i], b[i])`
for `i < a.length`, with no length check. -/
def veLoop (op : ℤ → ℤ → ℤ) (b : List ℤ) : ℕ → List ℤ → Except String (List ℤ)
  | _, [] => .ok []
  | i, x :: rest =>
    match jsGetE b i with
    | .error e => .error e
    | .ok y =>
      match veLoop op b (i + 1) rest with
      | .error e => .error e
      | .ok tail => .ok (op x y :: tail)

/-- `PrimeField.vectorElementsOp` (the modulus rides inside `op`). -/
def vectorElementsOp (_p : ℕ) (op : ℤ → ℤ → ℤ) (a b : List ℤ) :
    Except String (List ℤ) :=
  veLoop op b 0 a

/-- `PrimeField.addVectorElements`, vector-vector form. -/
def addVectorElements (p : ℕ) (a b : List ℤ) : Except String (List ℤ) :=
  vectorElementsOp p (add p) a b

/-- Inner loop of `PrimeField.mulMatrixes`:
`s = add(s, mul(a[i][k], b[k][j]))` for `k < m`, with `m` taken from
`a[0].length`, never validated against `b`'s row count. -/
def mmInner (p : ℕ) (arow : List ℤ) (b : List (List ℤ)) (j : ℕ) :
    ℤ → ℕ → ℕ → Except String ℤ
  | s, _, 0 => .ok s
  | s, k, fuel + 1 =>
    match jsGetE arow k, jsGetE b k with
    | .ok av, .ok brow =>
      match jsGetE brow j with
      | .ok bv => mmInner p arow b j (add p s (mul p av bv)) (k + 1) fuel
      | .error e => .error e
    | .error e, _ => .error e
    | _, .error e => .error e

/-- `PrimeField.mulMatrixes`: dimensions are read from `a.length`,
`a[0].length` and `b[0].length` with no compatibility check. -/
def mulMatrixes (p : ℕ) (a b : List (List ℤ)) : Except String (List (List ℤ)) :=
  match jsGetE a 0, jsGetE b 0 with
  | .ok row0, .ok brow0 =>
    a.mapM (fun arow => (List.range brow0.length).mapM
      (fun j => mmInner p arow b j 0 0 row0.length))
  | .error e, _ => .error e
  | _, .error e => .error e

theorem cvLoop_ok (p : ℕ) (b : List ℤ) :
    ∀ (a : List ℤ) (i : ℕ) (acc : ℤ), i + a.length ≤ b.length →
      ∃ v, cvLoop p b acc i a = .ok v := by
  intro a
  induction a with
  | nil => intro i acc _; exact ⟨acc, rfl⟩
  | cons x rest ih =>
    intro i acc hlen
    have hi : i < b.length := by simp at hlen; omega
    have hget : b.get? i = some (b.get ⟨i, hi⟩) := List.get?_eq_get hi
    simp only [cvLoop, jsGetE, hget]
    exact ih (i + 1) _ (by simp at hlen ⊢; omega)

theorem cvLoop_err (p : ℕ) (b : List ℤ) :
    ∀ (a : List ℤ) (i : ℕ) (acc : ℤ), i ≤ b.length → b.length < i + a.length →
      cvLoop p b acc i a = .error "TypeError" := by
  intro a
  induction a with
  | nil => intro i acc h1 h2; simp at h2; omega
  | cons x rest ih =>
    intro i acc h1 h2
    by_cases hi : i < b.length
    · have hget : b.get? i = some (b.get ⟨i, hi⟩) := List.get?_eq_get hi
      simp only [cvLoop, jsGetE, hget]
      exact ih (i + 1) _ (by omega) (by simp at h2 ⊢; omega)
    · have hget : b.get? i = none := List.get?_eq_none.mpr (by omega)
      simp only [cvLoop, jsGetE, hget]

theorem veLoop_ok (op : ℤ → ℤ → ℤ) (b : List ℤ) :
    ∀ (a : List ℤ) (i : ℕ), i + a.length ≤ b.length →
      ∃ w, veLoop op b i a = .ok w ∧ w.length = a.length := by
  intro a
  induction a with
  | nil => intro i _; exact ⟨[], rfl, rfl⟩
  | cons x rest ih =>
    intro i hlen
    have hi : i < b.length := by simp at hlen; omega
    have hget : b.get? i = some (b.get ⟨i, hi⟩) := List.get?_eq_get hi
    obtain ⟨w, hw, hwl⟩ := ih (i + 1) (by simp at hlen ⊢; omega)
    refine ⟨op x (b.get ⟨i, hi⟩) :: w, ?_, by simp [hwl]⟩
    simp only [veLoop, jsGetE, hget, hw]

theorem veLoop_err (op : ℤ → ℤ → ℤ) (b : List ℤ) :
    ∀ (a : List ℤ) (i : ℕ), i ≤ b.length → b.length < i + a.length →
      veLoop op b i a = .error "TypeError" := by
  intro a
  induction a with
  | nil => intro i h1 h2; simp at h2; omega
  | cons x rest ih =>
    intro i h1 h2
    by_cases hi : i < b.length
    · have hget : b.get? i = some (b.get ⟨i, hi⟩) := List.get?_eq_get hi
      simp only [veLoop, jsGetE, hget, ih (i + 1) (by omega) (by simp at h2 ⊢; omega)]
    · have hget : b.get? i = none := List.get?_eq_none.mpr (by omega)
      simp only [veLoop, jsGetE, hget]

/-- C6 counterexample: `combineVectors` on vectors of unequal length (first
operand shorter) returns a partial result instead of raising any error. -/
theorem claim6_counterexample : combineVectors 5 [1] [2, 3] = .ok 2 := rfl

/-- C6 (amended): the pure engine performs no shape validation.  When every
index it touches is in range (first operand no longer than the second;
matmul inner dimension within `b`'s rows) the operation returns a result
even for mismatched shapes; out-of-range reads fail with a TypeError, not a
dimension-mismatch error.  (The dimension checks of the spec exist only in
the accelerated Wasm engine.) -/
theorem claim6_noDimCheck (p : ℕ) (a b : List ℤ) (x y z : ℤ) :
    (a.length ≤ b.length → ∃ v, combineVectors p a b = .ok v) ∧
    (b.length < a.length → combineVectors p a b = .error "TypeError") ∧
    (a.length ≤ b.length →
      ∃ w, addVectorElements p a b = .ok w ∧ w.length = a.length) ∧
    (b.length < a.length → addVectorElements p a b = .error "TypeError") ∧
    mulMatrixes p [[x]] [[y], [z]] = .ok [[add p 0 (mul p x y)]] := by
  refine ⟨fun h => cvLoop_ok p b a 0 0 (by omega),
    fun h => cvLoop_err p b a 0 0 (by omega) (by omega),
    fun h => veLoop_ok (add p) b a 0 (by omega),
    fun h => veLoop_err (add p) b a 0 (by omega) (by omega), rfl⟩

/-- Witness for C6 at `p = 7`, `a = [4]`, `b = [5, 6]`. -/
theorem claim6_witness :
    ([4] : List ℤ).length ≤ ([5, 6] : List ℤ).length ∧
    ∃ v, combineVectors 7 [4] [5, 6] = .ok v :=
  ⟨by norm_num, (claim6_noDimCheck 7 [4] [5, 6] 0 0 0).1 (by norm_num)⟩

/-! ### Roots of unity (`PrimeField.getRootOfUnity`) -/

/-- Modelled from the spec: `isPowerOf2` lives in the repository's `./utils`
module, which is not under `src/`; the spec says the order must be a power
of two, so the predicate is exactly "is a power of two". -/
def isPowerOfTwo (n : ℕ) : Bool := decide (∃ k, k ≤ n ∧ n = 2 ^ k)

theorem isPowerOfTwo_iff (n : ℕ) : isPowerOfTwo n = true ↔ ∃ k, n = 2 ^ k := by
  rw [isPowerOfTwo, decide_eq_true_iff]
  constructor
  · rintro ⟨k, _, hk⟩; exact ⟨k, hk⟩
  · rintro ⟨k, hk⟩
    exact ⟨k, by subst hk; exact Nat.lt_of_lt_of_le (Nat.lt_two_pow k) le_rfl |>.le, hk⟩

/-- The `for (let i = 2n; i < this.modulus; i++)` search loop of
`getRootOfUnity`: compute `g = exp(i, (p-1)/order)` and accept `g` when
`exp(g, order) === 1n && exp(g, order/2) !== 1n` (short-circuit `&&` as in
JS); the fuel counts the remaining candidates up to `p`. -/
def rootSearch (p order : ℕ) : ℕ → ℕ → Except String ℤ
  | _, 0 => .error "Root of Unity for order was not found"
  | i, fuel + 1 =>
    match exp p (i : ℤ) (((p - 1) / order : ℕ) : ℤ) with
    | .error e => .error e
    | .ok g =>
      match exp p g (order : ℤ) with
      | .error e => .error e
      | .ok t1 =>
        if t1 = 1 then
          match exp p g ((order / 2 : ℕ) : ℤ) with
          | .error e => .error e
          | .ok t2 => if t2 ≠ 1 then .ok g else rootSearch p order (i + 1) fuel
        else rootSearch p order (i + 1) fuel

/-- `PrimeField.getRootOfUnity`. -/
def getRootOfUnity (p : ℕ) (order : ℕ) : Except String ℤ :=
  if isPowerOfTwo order = true then rootSearch p order 2 (p - 2)
  else .error "Order of unity must be 2^n"

theorem exp_one_nonneg (p : ℕ) (hp : p.Prime) (e : ℤ) (he : 0 ≤ e) :
    exp p 1 e = .ok 1 := by
  rw [exp_ok_val p hp 1 e (by norm_num) (by exact_mod_cast hp.one_lt) he
    (by rintro ⟨h, _⟩; norm_num at h)]
  rw [one_pow, jsMod_eq_of_range p 1 hp.pos (by norm_num) (by exact_mod_cast hp.one_lt)]

/-- One step of the order-2 search at a candidate `2 ≤ i < p`: since
`g = i^((p-1)/2)` always satisfies `g^2 ≡ 1`, the candidate is accepted
exactly when `g = p - 1`. -/
theorem rootSearch2_step (p : ℕ) (hp : p.Prime) (hodd : 2 < p) (i fuel : ℕ)
    (hi2 : 2 ≤ i) (hip : i < p) :
    rootSearch p 2 i (fuel + 1) =
      if jsMod p ((i : ℤ) ^ ((p - 1) / 2)) = (p : ℤ) - 1 then .ok ((p : ℤ) - 1)
      else rootSearch p 2 (i + 1) fuel := by
  haveI : Fact p.Prime := ⟨hp⟩
  have hp0 : 0 < p := hp.pos
  have hiz : (0 : ℤ) ≤ (i : ℤ) := by positivity
  have hilt : (i : ℤ) < p := by exact_mod_cast hip
  have hine : ((i : ℕ) : ℤ) ≠ 0 := by
    simp only [ne_eq, Nat.cast_eq_zero]; omega
  set g := jsMod p ((i : ℤ) ^ ((p - 1) / 2)) with hgdef
  have hexp1 : exp p (i : ℤ) (((p - 1) / 2 : ℕ) : ℤ) = Except.ok g := by
    rw [exp_ok_val p hp _ _ hiz hilt (by positivity) (fun h => hine h.1)]
    rw [Int.toNat_natCast]
  have hg0 : 0 ≤ g := jsMod_nonneg p _ hp0
  have hg1 : g < p := jsMod_lt p _ hp0
  -- g^2 reduces to 1: Fermat plus p odd
  have hicast : ((i : ℕ) : ZMod p) ≠ 0 := by
    have h := cast_ne_zero_of_range p (i : ℤ) (by exact_mod_cast (by omega : 0 < i)) hilt
    exact_mod_cast h
  have htwo : 2 * ((p - 1) / 2) = p - 1 := by
    obtain ⟨k, hk⟩ := hp.odd_of_ne_two (by omega)
    omega
  have hgcast_sq : (g : ZMod p) ^ 2 = 1 := by
    rw [hgdef, cast_jsMod p _ hp0]
    push_cast
    rw [← pow_mul, mul_comm ((p - 1) / 2) 2, htwo]
    exact ZMod.pow_card_sub_one_eq_one hicast
  have ht1 : exp p g ((2 : ℕ) : ℤ) = Except.ok 1 := by
    rw [exp_ok_val p hp g (((2 : ℕ)) : ℤ) hg0 hg1 (by positivity)
      (by rintro ⟨_, h⟩; norm_num at h)]
    congr 1
    rw [show (((2 : ℕ) : ℤ)).toNat = 2 from rfl]
    apply eq_of_cast_eq p _ _ (jsMod_nonneg p _ hp0) (jsMod_lt p _ hp0) (by norm_num)
      (by exact_mod_cast hp.one_lt)
    rw [cast_jsMod p _ hp0]
    push_cast
    exact hgcast_sq
  have ht2 : exp p g ((2 / 2 : ℕ) : ℤ) = Except.ok g := by
    rw [exp_ok_val p hp g (((2 / 2 : ℕ)) : ℤ) hg0 hg1 (by positivity)
      (by rintro ⟨_, h⟩; norm_num at h)]
    congr 1
    rw [show (((2 / 2 : ℕ) : ℤ)).toNat = 1 from rfl, pow_one]
    exact jsMod_eq_of_range p g hp0 hg0 hg1
  have hcases : g = 1 ∨ g = (p : ℤ) - 1 := by
    have hfac : ((g : ZMod p) - 1) * ((g : ZMod p) + 1) = 0 := by
      have heq : ((g : ZMod p) - 1) * ((g : ZMod p) + 1) = (g : ZMod p) ^ 2 - 1 := by
        ring
      rw [heq, hgcast_sq, sub_self]
    rcases mul_eq_zero.mp hfac with h | h
    · left
      have hcast : (g : ZMod p) = ((1 : ℤ) : ZMod p) := by
        rw [sub_eq_zero] at h; simpa using h
      exact eq_of_cast_eq p g 1 hg0 hg1 (by norm_num) (by exact_mod_cast hp.one_lt) hcast
    · right
      have hcast : (g : ZMod p) = ((((p : ℤ) - 1) : ℤ) : ZMod p) := by
        have h2 : (g : ZMod p) = -1 := by linear_combination h
        rw [h2]
        push_cast
        simp
      exact eq_of_cast_eq p g ((p : ℤ) - 1) hg0 hg1 (by omega) (by omega) hcast
  -- now unfold one loop step
  have hstep : rootSearch p 2 i (fuel + 1) =
      match exp p (i : ℤ) (((p - 1) / 2 : ℕ) : ℤ) with
      | Except.error e => Except.error e
      | Except.ok g =>
        match exp p g ((2 : ℕ) : ℤ) with
        | Except.error e => Except.error e
        | Except.ok t1 =>
          if t1 = 1 then
            match exp p g ((2 / 2 : ℕ) : ℤ) with
            | Except.error e => Except.error e
            | Except.ok t2 =>
              if t2 ≠ 1 then Except.ok g else rootSearch p 2 (i + 1) fuel
          else rootSearch p 2 (i + 1) fuel := rfl
  rw [hstep, hexp1]
  show (match exp p g ((2 : ℕ) : ℤ) with
    | Except.error e => Except.error e
    | Except.ok t1 =>
      if t1 = 1 then
        match exp p g ((2 / 2 : ℕ) : ℤ) with
        | Except.error e => Except.error e
        | Except.ok t2 =>
          if t2 ≠ 1 then Except.ok g else rootSearch p 2 (i + 1) fuel
      else rootSearch p 2 (i + 1) fuel) =
    if g = (p : ℤ) - 1 then Except.ok ((p : ℤ) - 1)
    else rootSearch p 2 (i + 1) fuel
  rw [ht1]
  show (if (1 : ℤ) = 1 then
      match exp p g ((2 / 2 : ℕ) : ℤ) with
      | Except.error e => Except.error e
      | Except.ok t2 =>
        if t2 ≠ 1 then Except.ok g else rootSearch p 2 (i + 1) fuel
    else rootSearch p 2 (i + 1) fuel) =
    if g = (p : ℤ) - 1 then Except.ok ((p : ℤ) - 1)
    else rootSearch p 2 (i + 1) fuel
  rw [if_pos rfl, ht2]
  show (if g ≠ 1 then Except.ok g else rootSearch p 2 (i + 1) fuel) =
    if g = (p : ℤ) - 1 then Except.ok ((p : ℤ) - 1)
    else rootSearch p 2 (i + 1) fuel
  rcases hcases with h | h
  · rw [h]
    rw [if_neg (by simp), if_neg (by omega : ¬ (1 : ℤ) = (p : ℤ) - 1)]
  · rw [h]
    rw [if_pos (by intro hc; omega), if_pos rfl]

/-- The order-2 search returns `p - 1` as soon as some candidate below `p`
satisfies `i^((p-1)/2) ≡ -1`. -/
theorem rootSearch2_ok (p : ℕ) (hp : p.Prime) (hodd : 2 < p) :
    ∀ (fuel i : ℕ), 2 ≤ i → i + fuel = p →
      (∃ j, i ≤ j ∧ j < p ∧ jsMod p ((j : ℤ) ^ ((p - 1) / 2)) = (p : ℤ) - 1) →
      rootSearch p 2 i fuel = .ok ((p : ℤ) - 1) := by
  intro fuel
  induction fuel with
  | zero =>
    rintro i hi2 hip ⟨j, hj1, hj2, _⟩
    omega
  | succ f ih =>
    rintro i hi2 hip hex
    rw [rootSearch2_step p hp hodd i f hi2 (by omega)]
    by_cases hsat : jsMod p ((i : ℤ) ^ ((p - 1) / 2)) = (p : ℤ) - 1
    · rw [if_pos hsat]
    · rw [if_neg hsat]
      obtain ⟨j, hj1, hj2, hj3⟩ := hex
      have hji : j ≠ i := fun h => hsat (h ▸ hj3)
      exact ih (i + 1) (by omega) (by omega) ⟨j, by omega, hj2, hj3⟩

/-- Some candidate in `[2, p)` is a quadratic non-residue: a generator of the
cyclic unit group works. -/
theorem exists_qnr (p : ℕ) (hp : p.Prime) (hodd : 2 < p) :
    ∃ j, 2 ≤ j ∧ j < p ∧ jsMod p ((j : ℤ) ^ ((p - 1) / 2)) = (p : ℤ) - 1 := by
  haveI : Fact p.Prime := ⟨hp⟩
  have hp0 : 0 < p := hp.pos
  obtain ⟨ζ, hζ⟩ := IsCyclic.exists_generator (α := (ZMod p)ˣ)
  have hcard : Nat.card (ZMod p)ˣ = p - 1 := by
    rw [Nat.card_eq_fintype_card, ZMod.card_units_eq_totient, Nat.totient_prime hp]
  have horder : orderOf ζ = p - 1 := by
    rw [orderOf_eq_card_of_forall_mem_zpowers hζ, hcard]
  have htwo : 2 * ((p - 1) / 2) = p - 1 := by
    obtain ⟨k, hk⟩ := hp.odd_of_ne_two (by omega)
    omega
  set m := (p - 1) / 2 with hm
  have hmpos : 0 < m := by omega
  have hmlt : m < p - 1 := by omega
  have hzsq : (ζ ^ m) ^ 2 = 1 := by
    rw [← pow_mul, mul_comm, htwo, ← horder, pow_orderOf_eq_one]
  have hzne : ζ ^ m ≠ 1 := by
    intro h
    have hdvd := orderOf_dvd_of_pow_eq_one h
    rw [horder] at hdvd
    have := Nat.le_of_dvd hmpos hdvd
    omega
  have hfsq : ((ζ : ZMod p) ^ m) ^ 2 = 1 := by
    have := congrArg (fun u : (ZMod p)ˣ => (u : ZMod p)) hzsq
    simpa using this
  have hfne : (ζ : ZMod p) ^ m ≠ 1 := by
    intro h
    apply hzne
    apply Units.ext
    simpa using h
  have hneg : (ζ : ZMod p) ^ m = -1 := by
    have hfac : ((ζ : ZMod p) ^ m - 1) * ((ζ : ZMod p) ^ m + 1) = 0 := by
      have hf : ((ζ : ZMod p) ^ m - 1) * ((ζ : ZMod p) ^ m + 1) =
          ((ζ : ZMod p) ^ m) ^ 2 - 1 := by ring
      rw [hf, hfsq, sub_self]
    rcases mul_eq_zero.mp hfac with h | h
    · exact absurd (by rwa [sub_eq_zero] at h) hfne
    · linear_combination h
  have hback : (((ζ : ZMod p).val : ℕ) : ZMod p) = (ζ : ZMod p) :=
    ZMod.natCast_zmod_val (ζ : ZMod p)
  refine ⟨(ζ : ZMod p).val, ?_, ZMod.val_lt _, ?_⟩
  · -- val is neither 0 nor 1
    have hne0 : (ζ : ZMod p).val ≠ 0 := by
      intro h
      apply Units.ne_zero ζ
      rw [← hback, h]
      norm_num
    have hne1 : (ζ : ZMod p).val ≠ 1 := by
      intro h
      apply hfne
      have hζ1 : (ζ : ZMod p) = 1 := by rw [← hback, h]; norm_num
      rw [hζ1, one_pow]
    omega
  · apply eq_of_cast_eq p _ _ (jsMod_nonneg p _ hp0) (jsMod_lt p _ hp0)
      (by omega) (by omega)
    rw [cast_jsMod p _ hp0]
    push_cast
    rw [hback, hneg]
    simp

/-- For order 1, no candidate ever satisfies the acceptance test (the second
conjunct is `g^0 !== 1`), so the loop exhausts and throws the not-found
error. -/
theorem rootSearch1_err (p : ℕ) (hp : p.Prime) :
    ∀ (fuel i : ℕ), 2 ≤ i → i + fuel ≤ p →
      rootSearch p 1 i fuel = .error "Root of Unity for order was not found" := by
  haveI : Fact p.Prime := ⟨hp⟩
  have hp0 : 0 < p := hp.pos
  intro fuel
  induction fuel with
  | zero => intro i _ _; rfl
  | succ f ih =>
    intro i hi2 hip
    have hiz : (0 : ℤ) ≤ (i : ℤ) := by positivity
    have hilt : (i : ℤ) < p := by exact_mod_cast (by omega : i < p)
    have hine : ((i : ℕ) : ℤ) ≠ 0 := by
      simp only [ne_eq, Nat.cast_eq_zero]; omega
    have hicast : ((i : ℕ) : ZMod p) ≠ 0 := by
      have h := cast_ne_zero_of_range p (i : ℤ)
        (by exact_mod_cast (by omega : 0 < i)) hilt
      exact_mod_cast h
    have hgval : jsMod p ((i : ℤ) ^ ((p - 1) / 1)) = 1 := by
      apply eq_of_cast_eq p _ _ (jsMod_nonneg p _ hp0) (jsMod_lt p _ hp0) (by norm_num)
        (by exact_mod_cast hp.one_lt)
      rw [cast_jsMod p _ hp0]
      push_cast
      rw [Nat.div_one]
      exact ZMod.pow_card_sub_one_eq_one hicast
    have hexp1 : exp p (i : ℤ) (((p - 1) / 1 : ℕ) : ℤ) = Except.ok 1 := by
      rw [exp_ok_val p hp _ _ hiz hilt (by positivity) (fun h => hine h.1)]
      rw [Int.toNat_natCast, hgval]
    have ht1 : exp p (1 : ℤ) ((1 : ℕ) : ℤ) = Except.ok 1 :=
      exp_one_nonneg p hp _ (by positivity)
    have ht2 : exp p (1 : ℤ) ((1 / 2 : ℕ) : ℤ) = Except.ok 1 :=
      exp_one_nonneg p hp _ (by positivity)
    have hstep : rootSearch p 1 i (f + 1) =
        match exp p (i : ℤ) (((p - 1) / 1 : ℕ) : ℤ) with
        | Except.error e => Except.error e
        | Except.ok g =>
          match exp p g ((1 : ℕ) : ℤ) with
          | Except.error e => Except.error e
          | Except.ok t1 =>
            if t1 = 1 then
              match exp p g ((1 / 2 : ℕ) : ℤ) with
              | Except.error e => Except.error e
              | Except.ok t2 =>
                if t2 ≠ 1 then Except.ok g else rootSearch p 1 (i + 1) f
            else rootSearch p 1 (i + 1) f := rfl
    rw [hstep, hexp1]
    show (match exp p (1 : ℤ) ((1 : ℕ) : ℤ) with
      | Except.error e => Except.error e
      | Except.ok t1 =>
        if t1 = 1 then
          match exp p (1 : ℤ) ((1 / 2 : ℕ) : ℤ) with
          | Except.error e => Except.error e
          | Except.ok t2 =>
            if t2 ≠ 1 then Except.ok (1 : ℤ) else rootSearch p 1 (i + 1) f
        else rootSearch p 1 (i + 1) f) =
      Except.error "Root of Unity for order was not found"
    rw [ht1]
    show (if (1 : ℤ) = 1 then
        match exp p (1 : ℤ) ((1 / 2 : ℕ) : ℤ) with
        | Except.error e => Except.error e
        | Except.ok t2 =>
          if t2 ≠ 1 then Except.ok (1 : ℤ) else rootSearch p 1 (i + 1) f
      else rootSearch p 1 (i + 1) f) =
      Except.error "Root of Unity for order was not found"
    rw [if_pos rfl, ht2]
    show (if (1 : ℤ) ≠ 1 then Except.ok (1 : ℤ) else rootSearch p 1 (i + 1) f) =
      Except.error "Root of Unity for order was not found"
    rw [if_neg (by simp)]
    exact ih (i + 1) (by omega) (by omega)

/-- C7 counterexample: `getRootOfUnity(1)` at `p = 5` throws the not-found
error instead of returning 1. -/
theorem claim7_counterexample :
    getRootOfUnity 5 1 = .error "Root of Unity for order was not found" := rfl

/-- C7 (amended): for every odd prime `p`, `getRootOfUnity(2) = p - 1`, but
`getRootOfUnity(1)` throws the not-found error (the acceptance test demands
`g^0 ≠ 1`, which no candidate satisfies). -/
theorem claim7_rootOfUnity (p : ℕ) (hp : p.Prime) (hodd : 2 < p) :
    getRootOfUnity p 2 = .ok ((p : ℤ) - 1) ∧
    getRootOfUnity p 1 = .error "Root of Unity for order was not found" := by
  constructor
  · rw [getRootOfUnity, if_pos (by rw [isPowerOfTwo_iff]; exact ⟨1, rfl⟩)]
    obtain ⟨j, hj1, hj2, hj3⟩ := exists_qnr p hp hodd
    apply rootSearch2_ok p hp hodd (p - 2) 2 le_rfl (by omega)
    -- the witness j is at least 2: j = 0 and j = 1 do not satisfy the test
    exact ⟨j, by omega, hj2, hj3⟩
  · rw [getRootOfUnity, if_pos (by rw [isPowerOfTwo_iff]; exact ⟨0, rfl⟩)]
    exact rootSearch1_err p hp (p - 2) 2 le_rfl (by omega)

/-- Witness for C7 at `p = 5`: the root of order 2 is `4 = 5 - 1`. -/
theorem claim7_witness :
    Nat.Prime 5 ∧ 2 < 5 ∧ getRootOfUnity 5 2 = .ok ((5 : ℤ) - 1) :=
  ⟨by norm_num, by norm_num, (claim7_rootOfUnity 5 (by norm_num) (by norm_num)).1⟩

/-! ### Polynomial kernels: evaluation, vanishing polynomial, division,
Lagrange interpolation -/

/-- The default Horner loop of `PrimeField.evalPolyAt`:
`y = mod(y + p[i] * powerOfx); powerOfx = mul(powerOfx, x)`. -/
def evalLoop (pm : ℕ) (x : ℤ) : ℤ → ℤ → List ℤ → ℤ
  | y, _, [] => y
  | y, pw, c :: rest => evalLoop pm x (jsMod pm (y + c * pw)) (mul pm pw x) rest

/-- `PrimeField.evalPolyAt` with its hot-path specializations for lengths
0 to 5 (note that the length-1 case returns `p[0]` unreduced). -/
def evalPolyAt (pm : ℕ) (q : List ℤ) (x : ℤ) : ℤ :=
  match q with
  | [] => 0
  | [c0] => c0
  | [c0, c1] => jsMod pm (c0 + c1 * x)
  | [c0, c1, c2] => jsMod pm (c0 + c1 * x + c2 * x * x)
  | [c0, c1, c2, c3] => jsMod pm (c0 + c1 * x + c2 * (x * x) + c3 * (x * x * x))
  | [c0, c1, c2, c3, c4] =>
      jsMod pm (c0 + c1 * x + c2 * (x * x) + c3 * (x * x * x) + c4 * (x * x * x) * x)
  | q => evalLoop pm x 0 1 q

/-- The inner coefficient-update loop of `zpoly`: walking from position `p`
upward, `result[j] = mod(result[j] - result[j+1] * c)` where `result[j+1]`
is still its old value; the freshly written `result[p] = 0` is the starting
`prev`, and the leading coefficient is left untouched. -/
def shiftMulSub (pm : ℕ) (c : ℤ) : ℤ → List ℤ → List ℤ
  | prev, [] => [prev]
  | prev, a :: rest => jsMod pm (prev - a * c) :: shiftMulSub pm c a rest

/-- The `zpoly` helper: vanishing polynomial of `xs`, built by repeatedly
composing with `(x - xs[i])` from `result = [1]`. -/
def zpoly (pm : ℕ) (xs : List ℤ) : List ℤ :=
  xs.foldl (fun acc c => shiftMulSub pm c 0 acc) [1]

/-- The `lastNonZeroIndex` helper (scan from the top for the last index
holding a nonzero value; `none` models JS `undefined`). -/
def lnzAux : List ℤ → Option ℕ
  | [] => none
  | a :: rest =>
    match lnzAux rest with
    | some j => some (j + 1)
    | none => if a ≠ 0 then some 0 else none

/-- `lastNonZeroIndex`. -/
def lastNonZeroIndex (values : List ℤ) : Option ℕ := lnzAux values

/-- The inner subtraction loop of `divPolys`:
`for (i = bpos; i >= 0; i--) a[diff + i] = mod(a[diff + i] - b[i] * quot)`,
descending; `base` is the current `diff` and the second `ℕ` argument is the
remaining count `i + 1`. -/
def subMulAt (pm : ℕ) (b : List ℤ) (quot : ℤ) (base : ℕ) : List ℤ → ℕ → List ℤ
  | a, 0 => a
  | a, i + 1 =>
    subMulAt pm b quot base
      (a.set (base + i) (jsMod pm (a.getD (base + i) 0 - b.getD i 0 * quot))) i

/-- The main loop of `divPolys`: at each step `quot = div(a[apos], b[bpos])`
is written at the current result position (highest first; the list is built
low-to-high by appending), the shifted multiple of `b` is subtracted in
place, and `diff`/`apos` decrease.  The last `ℕ` argument is the remaining
iteration count `diff + 1`. -/
def divLoop (pm : ℕ) (b : List ℤ) (bpos : ℕ) : List ℤ → ℕ → ℕ → List ℤ
  | _, _, 0 => []
  | a, apos, d + 1 =>
    let quot := div pm (a.getD apos 0) (b.getD bpos 0)
    divLoop pm b bpos (subMulAt pm b quot d a (bpos + 1)) (apos - 1) d ++ [quot]

/-- `PrimeField.divPolys`.  An all-zero operand makes `lastNonZeroIndex`
return `undefined` in JS, after which `new Array(NaN)` throws a RangeError;
that throw is the error case here. -/
def divPolys (pm : ℕ) (a b : List ℤ) : Except String (List ℤ) :=
  if a.length < b.length then .error "Cannot divide by polynomial of higher order"
  else
    match lastNonZeroIndex a, lastNonZeroIndex b with
    | some apos, some bpos => .ok (divLoop pm b bpos a apos (apos + 1 - bpos))
    | _, _ => .error "RangeError"

/-- One outer iteration of the accumulation loop of `interpolate`:
`result[j] = mod(result[j] + numerators[i][j] * ySlice)` guarded by the JS
truthiness test `numerators[i][j] && ys[i]` (an out-of-range read is
`undefined`, which is falsy, hence the `headD 0`). -/
def accumStep (pm : ℕ) (yi yS : ℤ) : List ℤ → List ℤ → List ℤ
  | [], _ => []
  | r :: res, num =>
    (if num.headD 0 ≠ 0 ∧ yi ≠ 0 then jsMod pm (r + num.headD 0 * yS) else r)
      :: accumStep pm yi yS res num.tail

/-- `PrimeField.interpolate` (generic Lagrange interpolation): build the
vanishing polynomial, divide out each `(x - xs[i])`, evaluate the numerators
at their own nodes, batch-invert the denominators, and accumulate
`y[i] * inv[i] * num_i` coefficientwise into a zero-filled result. -/
def interpolate (pm : ℕ) (xs ys : List ℤ) : Except String (List ℤ) :=
  if xs.length ≠ ys.length then
    .error "Number of x coordinates must be the same as number of y coordinates"
  else
    (xs.mapM (fun c => divPolys pm (zpoly pm xs) [-c, 1])).bind (fun numerators =>
      .ok ((numerators.zip (ys.zip (invVectorElements pm
          (List.zipWith (fun numi xi => evalPolyAt pm numi xi) numerators xs)))).foldl
        (fun res t => accumStep pm t.2.1 (jsMod pm (t.2.1 * t.2.2)) res t.1)
        (List.replicate ys.length 0)))

/-- The coefficient list as a polynomial over `ZMod pm`, in Horner form
(a proof-side semantic map, not part of the embedded code). -/
noncomputable def toPoly (pm : ℕ) : List ℤ → Polynomial (ZMod pm)
  | [] => 0
  | c :: rest => Polynomial.C ((c : ℤ) : ZMod pm) + Polynomial.X * toPoly pm rest

open Polynomial in
theorem toPoly_cons (pm : ℕ) (c : ℤ) (rest : List ℤ) :
    toPoly pm (c :: rest) = C ((c : ℤ) : ZMod pm) + X * toPoly pm rest := rfl

open Polynomial in
theorem evalLoop_cast (pm : ℕ) (hp0 : 0 < pm) (x : ℤ) :
    ∀ (q : List ℤ) (y pw : ℤ),
      ((evalLoop pm x y pw q : ℤ) : ZMod pm) =
        (y : ZMod pm) + (pw : ZMod pm) * (toPoly pm q).eval ((x : ℤ) : ZMod pm) := by
  intro q
  induction q with
  | nil => intro y pw; simp [evalLoop, toPoly]
  | cons c rest ih =>
    intro y pw
    show ((evalLoop pm x (jsMod pm (y + c * pw)) (mul pm pw x) rest : ℤ) : ZMod pm) = _
    rw [ih, cast_jsMod pm _ hp0, cast_mul pm _ _ hp0, toPoly_cons]
    push_cast
    simp only [eval_add, eval_mul, eval_C, eval_X]
    ring

theorem evalLoop_range (pm : ℕ) (hp0 : 0 < pm) (x : ℤ) :
    ∀ (q : List ℤ) (y pw : ℤ), 0 ≤ y → y < pm →
      0 ≤ evalLoop pm x y pw q ∧ evalLoop pm x y pw q < pm := by
  intro q
  induction q with
  | nil => intro y pw h0 h1; exact ⟨h0, h1⟩
  | cons c rest ih =>
    intro y pw h0 h1
    exact ih _ _ (jsMod_nonneg pm _ hp0) (jsMod_lt pm _ hp0)

open Polynomial in
theorem evalPolyAt_cast (pm : ℕ) (hp0 : 0 < pm) (q : List ℤ) (x : ℤ) :
    ((evalPolyAt pm q x : ℤ) : ZMod pm) = (toPoly pm q).eval ((x : ℤ) : ZMod pm) := by
  rcases q with _ | ⟨c0, _ | ⟨c1, _ | ⟨c2, _ | ⟨c3, _ | ⟨c4, _ | ⟨c5, rest⟩⟩⟩⟩⟩⟩
  · simp [evalPolyAt, toPoly]
  · simp [evalPolyAt, toPoly]
  · show ((jsMod pm (c0 + c1 * x) : ℤ) : ZMod pm) = _
    rw [cast_jsMod pm _ hp0]
    push_cast
    simp only [toPoly, eval_add, eval_mul, eval_C, eval_X, eval_zero]
    ring
  · show ((jsMod pm (c0 + c1 * x + c2 * x * x) : ℤ) : ZMod pm) = _
    rw [cast_jsMod pm _ hp0]
    push_cast
    simp only [toPoly, eval_add, eval_mul, eval_C, eval_X, eval_zero]
    ring
  · show ((jsMod pm (c0 + c1 * x + c2 * (x * x) + c3 * (x * x * x)) : ℤ) : ZMod pm) = _
    rw [cast_jsMod pm _ hp0]
    push_cast
    simp only [toPoly, eval_add, eval_mul, eval_C, eval_X, eval_zero]
    ring
  · show ((jsMod pm (c0 + c1 * x + c2 * (x * x) + c3 * (x * x * x) +
        c4 * (x * x * x) * x) : ℤ) : ZMod pm) = _
    rw [cast_jsMod pm _ hp0]
    push_cast
    simp only [toPoly, eval_add, eval_mul, eval_C, eval_X, eval_zero]
    ring
  · show ((evalLoop pm x 0 1 (c0 :: c1 :: c2 :: c3 :: c4 :: c5 :: rest) : ℤ) : ZMod pm) = _
    rw [evalLoop_cast pm hp0 x]
    push_cast
    ring

theorem evalPolyAt_range (pm : ℕ) (hp0 : 0 < pm) (q : List ℤ) (x : ℤ)
    (hq : ∀ e ∈ q, 0 ≤ e ∧ e < pm) :
    0 ≤ evalPolyAt pm q x ∧ evalPolyAt pm q x < pm := by
  rcases q with _ | ⟨c0, _ | ⟨c1, _ | ⟨c2, _ | ⟨c3, _ | ⟨c4, _ | ⟨c5, rest⟩⟩⟩⟩⟩⟩
  · exact ⟨le_rfl, show (0 : ℤ) < (pm : ℤ) by exact_mod_cast hp0⟩
  · exact hq c0 (by simp)
  · exact ⟨jsMod_nonneg pm _ hp0, jsMod_lt pm _ hp0⟩
  · exact ⟨jsMod_nonneg pm _ hp0, jsMod_lt pm _ hp0⟩
  · exact ⟨jsMod_nonneg pm _ hp0, jsMod_lt pm _ hp0⟩
  · exact ⟨jsMod_nonneg pm _ hp0, jsMod_lt pm _ hp0⟩
  · exact evalLoop_range pm hp0 x _ 0 1 le_rfl (by exact_mod_cast hp0)

open Polynomial in
theorem toPoly_shiftMulSub (pm : ℕ) (hp0 : 0 < pm) (c : ℤ) :
    ∀ (q : List ℤ) (prev : ℤ),
      toPoly pm (shiftMulSub pm c prev q) =
        C ((prev : ℤ) : ZMod pm) + (X - C ((c : ℤ) : ZMod pm)) * toPoly pm q := by
  intro q
  induction q with
  | nil => intro prev; simp [shiftMulSub, toPoly]
  | cons a rest ih =>
    intro prev
    show toPoly pm (jsMod pm (prev - a * c) :: shiftMulSub pm c a rest) = _
    rw [toPoly_cons, ih a, cast_jsMod pm _ hp0, toPoly_cons]
    push_cast
    simp only [map_sub, map_mul, map_add]
    ring

theorem shiftMulSub_length (pm : ℕ) (c : ℤ) :
    ∀ (q : List ℤ) (prev : ℤ), (shiftMulSub pm c prev q).length = q.length + 1 := by
  intro q
  induction q with
  | nil => intro prev; rfl
  | cons a rest ih => intro prev; simp [shiftMulSub, ih a]

theorem shiftMulSub_getLast? (pm : ℕ) (c : ℤ) :
    ∀ (q : List ℤ) (prev : ℤ),
      (shiftMulSub pm c prev q).getLast? = (prev :: q).getLast? := by
  intro q
  induction q with
  | nil => intro prev; rfl
  | cons a rest ih =>
    intro prev
    show (jsMod pm (prev - a * c) :: shiftMulSub pm c a rest).getLast? = _
    rcases hS : shiftMulSub pm c a rest with _ | ⟨s, ss⟩
    · exfalso
      have := shiftMulSub_length pm c rest a
      rw [hS] at this
      simp at this
    · rw [List.getLast?_cons_cons, ← hS, ih a, List.getLast?_cons_cons]

open Polynomial in
theorem zpoly_toPoly (pm : ℕ) (hp0 : 0 < pm) (xs : List ℤ) :
    toPoly pm (zpoly pm xs) =
      (xs.map (fun t : ℤ => X - C ((t : ℤ) : ZMod pm))).prod := by
  have hfold : ∀ (l : List ℤ) (acc : List ℤ),
      toPoly pm (l.foldl (fun acc c => shiftMulSub pm c 0 acc) acc) =
        toPoly pm acc * (l.map (fun t : ℤ => X - C ((t : ℤ) : ZMod pm))).prod := by
    intro l
    induction l with
    | nil => intro acc; simp
    | cons x xs ih =>
      intro acc
      show toPoly pm (xs.foldl _ (shiftMulSub pm x 0 acc)) = _
      rw [ih (shiftMulSub pm x 0 acc), toPoly_shiftMulSub pm hp0 x acc 0]
      simp only [List.map_cons, List.prod_cons, Int.cast_zero, map_zero, zero_add]
      ring
  rw [zpoly, hfold xs [1]]
  simp [toPoly]

theorem zpoly_length (pm : ℕ) (xs : List ℤ) :
    (zpoly pm xs).length = xs.length + 1 := by
  have hfold : ∀ (l : List ℤ) (acc : List ℤ),
      (l.foldl (fun acc c => shiftMulSub pm c 0 acc) acc).length =
        acc.length + l.length := by
    intro l
    induction l with
    | nil => intro acc; simp
    | cons x xs ih =>
      intro acc
      show (xs.foldl _ (shiftMulSub pm x 0 acc)).length = _
      rw [ih, shiftMulSub_length pm x acc 0]
      simp
      omega
  rw [zpoly, hfold xs [1]]
  simp [Nat.add_comm]

theorem zpoly_getLast? (pm : ℕ) (xs : List ℤ) :
    (zpoly pm xs).getLast? = some 1 := by
  have hfold : ∀ (l : List ℤ) (acc : List ℤ), acc.getLast? = some 1 →
      (l.foldl (fun acc c => shiftMulSub pm c 0 acc) acc).getLast? = some 1 := by
    intro l
    induction l with
    | nil => intro acc h; simpa using h
    | cons x xs ih =>
      intro acc h
      show (xs.foldl _ (shiftMulSub pm x 0 acc)).getLast? = some 1
      apply ih
      rw [shiftMulSub_getLast? pm x acc 0]
      rcases acc with _ | ⟨a, rest⟩
      · simp at h
      · rw [List.getLast?_cons_cons]
        exact h
  exact hfold xs [1] rfl

theorem lnzAux_of_getLast? :
    ∀ (l : List ℤ) (v : ℤ), l.getLast? = some v → v ≠ 0 →
      lnzAux l = some (l.length - 1) := by
  intro l
  induction l with
  | nil => intro v h; simp at h
  | cons a rest ih =>
    intro v h hv
    rcases rest with _ | ⟨b, rest'⟩
    · have hva : a ≠ 0 := by
        have hav : a = v := by simpa using h
        rw [hav]; exact hv
      show (if a ≠ 0 then some 0 else none) = some 0
      rw [if_pos hva]
    · rw [List.getLast?_cons_cons] at h
      have hr := ih v h hv
      show (match lnzAux (b :: rest') with
        | some j => some (j + 1)
        | none => if a ≠ 0 then some 0 else none) = _
      rw [hr]
      simp

theorem inv_one (p : ℕ) (hp : 1 < p) : inv p 1 = 1 := by
  have hp0 : 0 < p := by omega
  have h1 : jsMod p 1 = 1 :=
    jsMod_eq_of_range p 1 hp0 (by norm_num) (by exact_mod_cast hp)
  rw [inv, if_neg one_ne_zero, h1]
  have h2 : invLoop p ((1 : ℤ).toNat + 1) 1 0 1 (p : ℤ) = 1 := rfl
  rw [h2, h1]

theorem div_one (p : ℕ) (hp : 1 < p) (x : ℤ) : div p x 1 = jsMod p x := by
  rw [div, inv_one p hp, mul, mul_one]

theorem getD_set_ne {α : Type} (l : List α) (i j : ℕ) (v d : α) (h : i ≠ j) :
    (l.set i v).getD j d = l.getD j d := by
  rw [List.getD_eq_get?, List.getD_eq_get?, List.get?_set_ne v l h]

theorem getD_set_self {α : Type} (l : List α) (i : ℕ) (v d : α) (hi : i < l.length) :
    (l.set i v).getD i d = v := by
  rw [List.getD_eq_get?, List.get?_set_eq, List.get?_eq_get hi]
  rfl

theorem set_take_of_le {α : Type} (l : List α) (i : ℕ) (v : α) (n : ℕ) (h : n ≤ i) :
    (l.set i v).take n = l.take n := by
  apply List.ext
  intro m
  by_cases hm : m < n
  · rw [List.get?_take hm, List.get?_take hm, List.get?_set_ne v l (by omega)]
  · rw [List.get?_eq_none.mpr, List.get?_eq_none.mpr]
    · simp only [List.length_take]
      omega
    · simp only [List.length_take, List.length_set]
      omega

theorem set_take_comm {α : Type} (l : List α) (i : ℕ) (v : α) (n : ℕ) (_h : i < n) :
    (l.set i v).take n = (l.take n).set i v := by
  apply List.ext
  intro m
  by_cases hm : m < n
  · by_cases hmi : i = m
    · subst hmi
      rw [List.get?_take hm, List.get?_set_eq, List.get?_set_eq, List.get?_take hm]
    · rw [List.get?_take hm, List.get?_set_ne v l hmi, List.get?_set_ne v _ hmi,
        List.get?_take hm]
  · rw [List.get?_eq_none.mpr, List.get?_eq_none.mpr]
    · simp only [List.length_set, List.length_take]
      omega
    · simp only [List.length_take, List.length_set]
      omega

theorem subMulAt_succ (pm : ℕ) (b : List ℤ) (quot : ℤ) (base : ℕ) (a : List ℤ) (i : ℕ) :
    subMulAt pm b quot base a (i + 1) =
      subMulAt pm b quot base
        (a.set (base + i) (jsMod pm (a.getD (base + i) 0 - b.getD i 0 * quot))) i := rfl

theorem subMulAt_zero (pm : ℕ) (b : List ℤ) (quot : ℤ) (base : ℕ) (a : List ℤ) :
    subMulAt pm b quot base a 0 = a := rfl

theorem divLoop_succ (pm : ℕ) (b : List ℤ) (bpos : ℕ) (a : List ℤ) (apos d : ℕ) :
    divLoop pm b bpos a apos (d + 1) =
      divLoop pm b bpos
        (subMulAt pm b (div pm (a.getD apos 0) (b.getD bpos 0)) d a (bpos + 1))
        (apos - 1) d ++ [div pm (a.getD apos 0) (b.getD bpos 0)] := rfl

theorem divLoop_length (pm : ℕ) (b : List ℤ) (bpos : ℕ) :
    ∀ (count : ℕ) (a : List ℤ) (apos : ℕ),
      (divLoop pm b bpos a apos count).length = count := by
  intro count
  induction count with
  | zero => intro a apos; rfl
  | succ d ih =>
    intro a apos
    rw [divLoop_succ]
    simp [ih]

theorem divLoop_entries (pm : ℕ) (hp0 : 0 < pm) (b : List ℤ) (bpos : ℕ) :
    ∀ (count : ℕ) (a : List ℤ) (apos : ℕ),
      ∀ e ∈ divLoop pm b bpos a apos count, 0 ≤ e ∧ e < pm := by
  intro count
  induction count with
  | zero => intro a apos e he; simp [divLoop] at he
  | succ d ih =>
    intro a apos e he
    rw [divLoop_succ] at he
    rcases List.mem_append.mp he with h | h
    · exact ih _ _ e h
    · simp at h
      subst h
      exact ⟨jsMod_nonneg pm _ hp0, jsMod_lt pm _ hp0⟩

open Polynomial in
theorem toPoly_append (pm : ℕ) :
    ∀ (l m : List ℤ), toPoly pm (l ++ m) = toPoly pm l + X ^ l.length * toPoly pm m := by
  intro l
  induction l with
  | nil => intro m; simp [toPoly]
  | cons c rest ih =>
    intro m
    show toPoly pm (c :: (rest ++ m)) = _
    rw [toPoly_cons, ih m, toPoly_cons]
    simp only [List.length_cons]
    rw [pow_succ]
    ring

open Polynomial in
theorem toPoly_set (pm : ℕ) :
    ∀ (l : List ℤ) (j : ℕ) (v : ℤ), j < l.length →
      toPoly pm (l.set j v) = toPoly pm l +
        (C ((v : ℤ) : ZMod pm) - C ((l.getD j 0 : ℤ) : ZMod pm)) * X ^ j := by
  intro l
  induction l with
  | nil => intro j v hj; simp at hj
  | cons c rest ih =>
    intro j v hj
    match j with
    | 0 =>
      show toPoly pm (v :: rest) = _
      rw [toPoly_cons, toPoly_cons]
      show _ = _ + (C ((v : ℤ) : ZMod pm) - C ((c : ℤ) : ZMod pm)) * X ^ 0
      ring
    | Nat.succ j' =>
      show toPoly pm (c :: rest.set j' v) = _
      rw [toPoly_cons, ih j' v (by simpa using hj), toPoly_cons]
      show _ = _ + (C ((v : ℤ) : ZMod pm) - C ((rest.getD j' 0 : ℤ) : ZMod pm)) *
        X ^ (j' + 1)
      rw [pow_succ]
      ring

open Polynomial in
theorem getD_take_of_lt {α : Type} (l : List α) (n m : ℕ) (d : α) (h : m < n) :
    (l.take n).getD m d = l.getD m d := by
  rw [List.getD_eq_get?, List.getD_eq_get?, List.get?_take h]

open Polynomial in
theorem toPoly_take_succ (pm : ℕ) (l : List ℤ) (n : ℕ) (hn : n < l.length) :
    toPoly pm (l.take (n + 1)) =
      toPoly pm (l.take n) + C ((l.getD n 0 : ℤ) : ZMod pm) * X ^ n := by
  rw [List.take_succ]
  have hget : l[n]? = some (l.get ⟨n, hn⟩) := by simpa using List.get?_eq_get hn
  rw [hget]
  show toPoly pm (l.take n ++ [l.get ⟨n, hn⟩]) = _
  rw [toPoly_append]
  have hlen : (l.take n).length = n := by
    simp [List.length_take]
    omega
  have hgd : l.getD n 0 = l.get ⟨n, hn⟩ := by
    rw [List.getD_eq_get?, List.get?_eq_get hn]
    rfl
  rw [hlen, hgd]
  show _ + X ^ n * (C _ + X * 0) = _
  ring

theorem toPoly_replicate_zero (pm : ℕ) : ∀ n : ℕ, toPoly pm (List.replicate n 0) = 0 := by
  intro n
  induction n with
  | zero => rfl
  | succ k ih =>
    show toPoly pm (0 :: List.replicate k 0) = 0
    rw [toPoly_cons, ih]
    simp

theorem divLoop_zero (pm : ℕ) (b : List ℤ) (bpos : ℕ) (a : List ℤ) (apos : ℕ) :
    divLoop pm b bpos a apos 0 = [] := rfl

theorem subMulAt_one (pm : ℕ) (b : List ℤ) (quot : ℤ) (base : ℕ) (a : List ℤ) :
    subMulAt pm b quot base a 1 =
      a.set (base + 0) (jsMod pm (a.getD (base + 0) 0 - b.getD 0 0 * quot)) := rfl

theorem subMulAt_length (pm : ℕ) (b : List ℤ) (quot : ℤ) (base : ℕ) :
    ∀ (count : ℕ) (a : List ℤ), (subMulAt pm b quot base a count).length = a.length := by
  intro count
  induction count with
  | zero => intro a; rfl
  | succ i ih =>
    intro a
    rw [subMulAt_succ, ih]
    simp

open Polynomial in
/-- Synthetic division by the monic linear `[-c, 1]`: the quotient `Q`
computed by `divLoop` satisfies `take (f+1) a = (X - C c) * Q + C r` for
some constant `r` (the remainder, not returned by the code). -/
theorem divLoop_linear (pm : ℕ) (hp : 1 < pm) (c : ℤ) :
    ∀ (f : ℕ) (a : List ℤ), 1 ≤ f → f < a.length →
      ∃ r : ZMod pm, toPoly pm (a.take (f + 1)) =
        (X - C ((c : ℤ) : ZMod pm)) * toPoly pm (divLoop pm [-c, 1] 1 a f f) +
          C r := by
  have hp0 : 0 < pm := by omega
  have hb1 : (([-c, 1] : List ℤ)).getD 1 0 = 1 := rfl
  have hb0 : (([-c, 1] : List ℤ)).getD 0 0 = -c := rfl
  intro f
  induction f with
  | zero => intro a h; omega
  | succ f ih =>
    intro a _ hlen
    by_cases hf : f = 0
    · subst hf
      rcases a with _ | ⟨a0, _ | ⟨a1, rest⟩⟩
      · simp at hlen
      · simp at hlen
      · rw [divLoop_succ, divLoop_zero, List.nil_append, hb1]
        have hg1 : ((a0 :: a1 :: rest : List ℤ)).getD (0 + 1) 0 = a1 := rfl
        rw [hg1, div_one pm hp]
        refine ⟨((a0 : ℤ) : ZMod pm) + ((c : ℤ) : ZMod pm) * ((a1 : ℤ) : ZMod pm), ?_⟩
        show toPoly pm [a0, a1] = _
        rw [toPoly_cons, toPoly_cons]
        show _ = (X - C ((c : ℤ) : ZMod pm)) * toPoly pm [jsMod pm a1] + _
        rw [toPoly_cons]
        rw [cast_jsMod pm _ hp0]
        show C ((a0 : ℤ) : ZMod pm) + X * (C ((a1 : ℤ) : ZMod pm) + X * toPoly pm []) = _
        show _ = (X - C ((c : ℤ) : ZMod pm)) * (C ((a1 : ℤ) : ZMod pm) + X * toPoly pm []) + _
        show C ((a0 : ℤ) : ZMod pm) + X * (C ((a1 : ℤ) : ZMod pm) + X * 0) =
          (X - C ((c : ℤ) : ZMod pm)) * (C ((a1 : ℤ) : ZMod pm) + X * 0) + _
        rw [map_add, map_mul]
        ring
    · -- inductive step: one synthetic-division iteration
      rw [divLoop_succ, hb1, div_one pm hp]
      rw [subMulAt_succ, subMulAt_one, hb1, hb0]
      rw [Nat.add_sub_cancel]
      set q : ℤ := jsMod pm (a.getD (f + 1) 0) with hqdef
      set w1 : ℤ := jsMod pm (a.getD (f + 1) 0 - 1 * q) with hw1def
      have hgne : ((a.set (f + 1) w1)).getD (f + 0) 0 = a.getD (f + 0) 0 :=
        getD_set_ne a (f + 1) (f + 0) w1 0 (by omega)
      rw [hgne]
      set w0 : ℤ := jsMod pm (a.getD (f + 0) 0 - -c * q) with hw0def
      set a2 : List ℤ := (a.set (f + 1) w1).set (f + 0) w0 with ha2def
      have ha2len : a2.length = a.length := by
        rw [ha2def]
        simp
      obtain ⟨r, hIH⟩ := ih a2 (by omega) (by omega)
      -- rewrite a2.take (f+1) through the two sets
      have htake : a2.take (f + 1) = (a.take (f + 1)).set (f + 0) w0 := by
        rw [ha2def, set_take_comm _ (f + 0) w0 (f + 1) (by omega),
          set_take_of_le _ (f + 1) w1 (f + 1) le_rfl]
      have hsetlen : f + 0 < (a.take (f + 1)).length := by
        simp [List.length_take]
        omega
      have htp : toPoly pm (a2.take (f + 1)) = toPoly pm (a.take (f + 1)) +
          (C ((w0 : ℤ) : ZMod pm) - C (((a.take (f + 1)).getD (f + 0) 0 : ℤ) : ZMod pm)) *
            X ^ (f + 0) := by
        rw [htake]
        exact toPoly_set pm (a.take (f + 1)) (f + 0) w0 hsetlen
      have hgdt : ((a.take (f + 1))).getD (f + 0) 0 = a.getD (f + 0) 0 :=
        getD_take_of_lt a (f + 1) (f + 0) 0 (by omega)
      rw [hgdt] at htp
      -- casts of the written values
      have hqc : ((q : ℤ) : ZMod pm) = ((a.getD (f + 1) 0 : ℤ) : ZMod pm) := by
        rw [hqdef, cast_jsMod pm _ hp0]
      have hw0c : ((w0 : ℤ) : ZMod pm) =
          ((a.getD (f + 0) 0 : ℤ) : ZMod pm) +
            ((c : ℤ) : ZMod pm) * ((a.getD (f + 1) 0 : ℤ) : ZMod pm) := by
        rw [hw0def, cast_jsMod pm _ hp0]
        push_cast
        rw [hqc]
        ring
      refine ⟨r, ?_⟩
      rw [toPoly_append, divLoop_length]
      have htop : toPoly pm [q] = C ((q : ℤ) : ZMod pm) := by
        rw [toPoly_cons]
        show _ + X * 0 = _
        ring
      rw [htop, hqc]
      have hA : toPoly pm (a.take (f + 1 + 1)) = toPoly pm (a.take (f + 1)) +
          C ((a.getD (f + 1) 0 : ℤ) : ZMod pm) * X ^ (f + 1) :=
        toPoly_take_succ pm a (f + 1) (by omega)
      have hB : (X - C ((c : ℤ) : ZMod pm)) *
          toPoly pm (divLoop pm [-c, 1] 1 a2 f f) =
          toPoly pm (a.take (f + 1)) +
            (C ((w0 : ℤ) : ZMod pm) - C ((a.getD (f + 0) 0 : ℤ) : ZMod pm)) * X ^ (f + 0)
            - C r := by
        rw [← htp, hIH]
        ring
      have hw0C : C ((w0 : ℤ) : ZMod pm) =
          C ((a.getD (f + 0) 0 : ℤ) : ZMod pm) +
            C ((c : ℤ) : ZMod pm) * C ((a.getD (f + 1) 0 : ℤ) : ZMod pm) := by
        rw [hw0c, map_add, map_mul]
      rw [hw0C] at hB
      linear_combination hA - hB

theorem mapM_ok {α β : Type} (f : α → Except String β) (g : α → β) :
    ∀ (l : List α), (∀ c ∈ l, f c = .ok (g c)) → l.mapM f = .ok (l.map g) := by
  intro l
  induction l with
  | nil => intro _; rfl
  | cons x xs ih =>
    intro h
    rw [List.mapM_cons, h x (by simp), ih (fun c hc => h c (by simp [hc]))]
    rfl

theorem accumStep_length (pm : ℕ) (yi yS : ℤ) :
    ∀ (res num : List ℤ), (accumStep pm yi yS res num).length = res.length := by
  intro res
  induction res with
  | nil => intro num; rfl
  | cons r res ih => intro num; simp [accumStep, ih]

theorem accumStep_entries (pm : ℕ) (hp0 : 0 < pm) (yi yS : ℤ) :
    ∀ (res num : List ℤ), (∀ e ∈ res, 0 ≤ e ∧ e < pm) →
      ∀ e ∈ accumStep pm yi yS res num, 0 ≤ e ∧ e < pm := by
  intro res
  induction res with
  | nil => intro num _ e he; simp [accumStep] at he
  | cons r res ih =>
    intro num hres e he
    rcases List.mem_cons.mp he with h | h
    · subst h
      by_cases hcond : num.headD 0 ≠ 0 ∧ yi ≠ 0
      · rw [if_pos hcond]
        exact ⟨jsMod_nonneg pm _ hp0, jsMod_lt pm _ hp0⟩
      · rw [if_neg hcond]
        exact hres r (by simp)
    · exact ih num.tail (fun u hu => hres u (by simp [hu])) e h

open Polynomial in
theorem toPoly_accumStep (pm : ℕ) (hp0 : 0 < pm) (yi yS : ℤ)
    (hy0 : yi = 0 → ((yS : ℤ) : ZMod pm) = 0) :
    ∀ (res num : List ℤ), res.length = num.length →
      toPoly pm (accumStep pm yi yS res num) =
        toPoly pm res + C ((yS : ℤ) : ZMod pm) * toPoly pm num := by
  intro res
  induction res with
  | nil =>
    intro num h
    have hnum : num = [] := List.eq_nil_of_length_eq_zero h.symm
    subst hnum
    show toPoly pm [] = toPoly pm [] + _ * toPoly pm []
    show (0 : Polynomial (ZMod pm)) = 0 + _ * 0
    ring
  | cons r res ih =>
    intro num h
    rcases num with _ | ⟨n, num'⟩
    · simp at h
    · show toPoly pm ((if n ≠ 0 ∧ yi ≠ 0 then jsMod pm (r + n * yS) else r) ::
        accumStep pm yi yS res num') = _
      rw [toPoly_cons, ih num' (by simpa using h), toPoly_cons, toPoly_cons]
      by_cases hcond : n ≠ 0 ∧ yi ≠ 0
      · rw [if_pos hcond, cast_jsMod pm _ hp0]
        push_cast
        rw [map_add, map_mul]
        ring
      · rw [if_neg hcond]
        rcases not_and_or.mp hcond with hn | hy
        · have hn0 : ((n : ℤ) : ZMod pm) = 0 := by
            push_neg at hn
            rw [hn]
            norm_num
          rw [hn0, map_zero]
          ring
        · have hy0' : ((yS : ℤ) : ZMod pm) = 0 := hy0 (by push_neg at hy; exact hy)
          rw [hy0', map_zero]
          ring

open Polynomial in
theorem toPoly_accumFold (pm : ℕ) (hp0 : 0 < pm) :
    ∀ (ts : List (List ℤ × (ℤ × ℤ))) (res : List ℤ),
      (∀ t ∈ ts, t.1.length = res.length) →
      toPoly pm (ts.foldl
        (fun res t => accumStep pm t.2.1 (jsMod pm (t.2.1 * t.2.2)) res t.1) res) =
        toPoly pm res +
          (ts.map (fun t => C ((jsMod pm (t.2.1 * t.2.2) : ℤ) : ZMod pm) *
            toPoly pm t.1)).sum := by
  intro ts
  induction ts with
  | nil => intro res _; simp
  | cons t ts ih =>
    intro res hlens
    show toPoly pm (ts.foldl _
      (accumStep pm t.2.1 (jsMod pm (t.2.1 * t.2.2)) res t.1)) = _
    rw [ih _ (fun u hu => by
      rw [accumStep_length]
      exact hlens u (by simp [hu]))]
    rw [toPoly_accumStep pm hp0 t.2.1 (jsMod pm (t.2.1 * t.2.2))
      (fun hz => by rw [cast_jsMod pm _ hp0, hz]; push_cast; ring)
      res t.1 (hlens t (by simp)).symm]
    simp only [List.map_cons, List.sum_cons]
    ring

theorem list_map_sum_eq {M : Type} [AddCommMonoid M] {α : Type} (d : α) (f : α → M) :
    ∀ l : List α, (l.map f).sum = ∑ j ∈ Finset.range l.length, f (l.getD j d) := by
  intro l
  induction l with
  | nil => simp
  | cons a l ih =>
    simp only [List.map_cons, List.sum_cons, List.length_cons]
    rw [Finset.sum_range_succ', ih]
    simp only [List.getD_cons_succ, List.getD_cons_zero]
    exact (add_comm _ _)

theorem getD_of_lt {α : Type} (l : List α) (j : ℕ) (d : α) (h : j < l.length) :
    l.getD j d = l.get ⟨j, h⟩ := by
  rw [List.getD_eq_get?, List.get?_eq_get h]
  rfl

theorem getD_zip {α β : Type} (l1 : List α) (l2 : List β) (j : ℕ) (d1 : α) (d2 : β)
    (h1 : j < l1.length) (h2 : j < l2.length) :
    (l1.zip l2).getD j (d1, d2) = (l1.getD j d1, l2.getD j d2) := by
  have hz : j < (l1.zip l2).length := by
    simp [List.length_zip]
    omega
  rw [getD_of_lt _ _ _ hz, getD_of_lt _ _ _ h1, getD_of_lt _ _ _ h2]
  exact List.get_zip

theorem getD_zipWith {α β γ : Type} (f : α → β → γ) (l1 : List α) (l2 : List β)
    (j : ℕ) (d1 : α) (d2 : β) (d3 : γ) (h1 : j < l1.length) (h2 : j < l2.length) :
    (List.zipWith f l1 l2).getD j d3 = f (l1.getD j d1) (l2.getD j d2) := by
  have hz : j < (List.zipWith f l1 l2).length := by
    simp [List.length_zipWith]
    omega
  rw [getD_of_lt _ _ _ hz, getD_of_lt _ _ _ h1, getD_of_lt _ _ _ h2]
  exact List.get_zipWith

theorem getD_map_of_lt {α β : Type} (f : α → β) (l : List α) (j : ℕ) (d1 : α) (d2 : β)
    (h : j < l.length) : (l.map f).getD j d2 = f (l.getD j d1) := by
  have hm : j < (l.map f).length := by simpa using h
  rw [getD_of_lt _ _ _ hm, getD_of_lt _ _ _ h]
  simp

theorem accumFold_length (pm : ℕ) :
    ∀ (ts : List (List ℤ × (ℤ × ℤ))) (res : List ℤ),
      (ts.foldl (fun res t => accumStep pm t.2.1 (jsMod pm (t.2.1 * t.2.2)) res t.1)
        res).length = res.length := by
  intro ts
  induction ts with
  | nil => intro res; rfl
  | cons t ts ih =>
    intro res
    show (ts.foldl _ (accumStep pm t.2.1 (jsMod pm (t.2.1 * t.2.2)) res t.1)).length = _
    rw [ih, accumStep_length]

theorem accumFold_entries (pm : ℕ) (hp0 : 0 < pm) :
    ∀ (ts : List (List ℤ × (ℤ × ℤ))) (res : List ℤ),
      (∀ e ∈ res, 0 ≤ e ∧ e < pm) →
      ∀ e ∈ ts.foldl (fun res t => accumStep pm t.2.1 (jsMod pm (t.2.1 * t.2.2)) res t.1)
        res, 0 ≤ e ∧ e < pm := by
  intro ts
  induction ts with
  | nil => intro res h e he; exact h e he
  | cons t ts ih =>
    intro res h e he
    exact ih _ (accumStep_entries pm hp0 t.2.1 (jsMod pm (t.2.1 * t.2.2)) res t.1 h) e he

open Polynomial in
/-- C5: generic Lagrange interpolation.  For pairwise-distinct canonical
nodes `xs` and equal-length canonical values `ys`, `interpolate` succeeds
and the returned polynomial evaluates to `ys[i]` at `xs[i]` for every
index. -/
theorem claim5_interpolate (pm : ℕ) (hp : pm.Prime) (xs ys : List ℤ)
    (hlen : xs.length = ys.length)
    (hxs : ∀ x ∈ xs, 0 ≤ x ∧ x < pm) (hys : ∀ y ∈ ys, 0 ≤ y ∧ y < pm)
    (hdist : List.Pairwise (fun u v : ℤ => u ≠ v) xs) :
    ∃ L, interpolate pm xs ys = .ok L ∧ L.length = ys.length ∧
      ∀ i, i < xs.length → evalPolyAt pm L (xs.getD i 0) = ys.getD i 0 := by
  haveI : Fact pm.Prime := ⟨hp⟩
  have hp0 : 0 < pm := hp.pos
  have hp1 : 1 < pm := hp.one_lt
  rcases Nat.eq_zero_or_pos xs.length with hk0 | hkpos
  · have hxs_nil : xs = [] := List.eq_nil_of_length_eq_zero hk0
    have hys_nil : ys = [] := List.eq_nil_of_length_eq_zero (by omega)
    subst hxs_nil
    subst hys_nil
    exact ⟨[], rfl, rfl, fun i hi => by simp at hi⟩
  · set k := xs.length with hkdef
    set root := zpoly pm xs with hrootdef
    have hrootlen : root.length = k + 1 := zpoly_length pm xs
    have hrootlast : lastNonZeroIndex root = some k := by
      have h := lnzAux_of_getLast? root 1 (zpoly_getLast? pm xs) one_ne_zero
      rw [hrootlen] at h
      simpa using h
    have hR : toPoly pm root =
        (xs.map (fun t : ℤ => X - C ((t : ℤ) : ZMod pm))).prod := zpoly_toPoly pm hp0 xs
    set N : ℤ → List ℤ := fun c => divLoop pm [-c, 1] 1 root k k with hNdef
    have hdp : ∀ c : ℤ, divPolys pm root [-c, 1] = .ok (N c) := by
      intro c
      rw [divPolys, if_neg (by
        show ¬ root.length < (([-c, 1] : List ℤ)).length
        rw [hrootlen]
        show ¬ k + 1 < 2
        omega)]
      have hb : lastNonZeroIndex ([-c, 1] : List ℤ) = some 1 := rfl
      rw [hrootlast, hb]
      show Except.ok (divLoop pm [-c, 1] 1 root k (k + 1 - 1)) = _
      rw [Nat.add_sub_cancel]
    have hNlen : ∀ c : ℤ, (N c).length = k := fun c =>
      divLoop_length pm [-c, 1] 1 k root k
    have hNent : ∀ c : ℤ, ∀ e ∈ N c, 0 ≤ e ∧ e < pm := fun c =>
      divLoop_entries pm hp0 [-c, 1] 1 k root k
    have hfac : ∀ c : ℤ, ∃ r : ZMod pm,
        (xs.map (fun t : ℤ => X - C ((t : ℤ) : ZMod pm))).prod =
          (X - C ((c : ℤ) : ZMod pm)) * toPoly pm (N c) + C r := by
      intro c
      obtain ⟨r, hr⟩ := divLoop_linear pm hp1 c k root (by omega) (by omega)
      have htake : root.take (k + 1) = root := by
        rw [← hrootlen]
        exact List.take_length root
      rw [htake] at hr
      exact ⟨r, by rw [← hR]; exact hr⟩
    have hcastinj : ∀ i j, i < k → j < k → i ≠ j →
        ((xs.getD i 0 : ℤ) : ZMod pm) ≠ ((xs.getD j 0 : ℤ) : ZMod pm) := by
      intro i j hi hj hij hc
      have hvi := hxs (xs.getD i 0) (by rw [getD_of_lt xs i 0 hi]; exact List.get_mem xs i hi)
      have hvj := hxs (xs.getD j 0) (by rw [getD_of_lt xs j 0 hj]; exact List.get_mem xs j hj)
      have heq := eq_of_cast_eq pm _ _ hvi.1 hvi.2 hvj.1 hvj.2 hc
      rw [getD_of_lt xs i 0 hi, getD_of_lt xs j 0 hj] at heq
      rw [List.pairwise_iff_get] at hdist
      rcases Nat.lt_or_ge i j with h | h
      · exact hdist ⟨i, hi⟩ ⟨j, hj⟩ h heq
      · have hji : j < i := by omega
        exact hdist ⟨j, hj⟩ ⟨i, hi⟩ hji heq.symm
    have hReval0 : ∀ j, j < k →
        Polynomial.eval ((xs.getD j 0 : ℤ) : ZMod pm)
          ((xs.map (fun t : ℤ => X - C ((t : ℤ) : ZMod pm))).prod) = 0 := by
      intro j hj
      rw [Polynomial.eval_list_prod]
      apply List.prod_eq_zero
      rw [List.map_map]
      apply List.mem_map.mpr
      refine ⟨xs.getD j 0, ?_, ?_⟩
      · rw [getD_of_lt xs j 0 hj]
        exact List.get_mem xs j hj
      · simp
    have hfac0 : ∀ j, j < k →
        (xs.map (fun t : ℤ => X - C ((t : ℤ) : ZMod pm))).prod =
          (X - C ((xs.getD j 0 : ℤ) : ZMod pm)) * toPoly pm (N (xs.getD j 0)) := by
      intro j hj
      obtain ⟨r, hr⟩ := hfac (xs.getD j 0)
      have h0 := congrArg (Polynomial.eval ((xs.getD j 0 : ℤ) : ZMod pm)) hr
      rw [hReval0 j hj] at h0
      rw [Polynomial.eval_add, Polynomial.eval_mul, Polynomial.eval_sub,
        Polynomial.eval_X, Polynomial.eval_C, sub_self, zero_mul, zero_add] at h0
      rw [Polynomial.eval_C] at h0
      have hr0 : r = 0 := h0.symm
      rw [hr, hr0, map_zero, add_zero]
    have hNeval0 : ∀ i j, i < k → j < k → j ≠ i →
        Polynomial.eval ((xs.getD j 0 : ℤ) : ZMod pm)
          (toPoly pm (N (xs.getD i 0))) = 0 := by
      intro i j hi hj hji
      have h := congrArg (Polynomial.eval ((xs.getD j 0 : ℤ) : ZMod pm)) (hfac0 i hi)
      rw [hReval0 j hj, Polynomial.eval_mul, Polynomial.eval_sub, Polynomial.eval_X,
        Polynomial.eval_C] at h
      have hne : ((xs.getD j 0 : ℤ) : ZMod pm) - ((xs.getD i 0 : ℤ) : ZMod pm) ≠ 0 :=
        sub_ne_zero.mpr (hcastinj j i hj hi hji)
      rcases mul_eq_zero.mp h.symm with h' | h'
      · exact absurd h' hne
      · exact h'
    have hNevalden : ∀ i, i < k →
        Polynomial.eval ((xs.getD i 0 : ℤ) : ZMod pm)
          (toPoly pm (N (xs.getD i 0))) ≠ 0 := by
      intro i hi
      have hig : xs.getD i 0 = xs.get ⟨i, hi⟩ := getD_of_lt xs i 0 hi
      have hdropeq := List.drop_eq_get_cons (show i < xs.length from hi)
      have hprodsplit : (xs.map (fun t : ℤ => X - C ((t : ℤ) : ZMod pm))).prod =
          ((xs.take i).map (fun t : ℤ => X - C ((t : ℤ) : ZMod pm))).prod *
            ((X - C ((xs.get ⟨i, hi⟩ : ℤ) : ZMod pm)) *
              ((xs.drop (i + 1)).map (fun t : ℤ => X - C ((t : ℤ) : ZMod pm))).prod) := by
        conv_lhs => rw [← List.take_append_drop i xs, hdropeq]
        rw [List.map_append, List.prod_append, List.map_cons, List.prod_cons]
      have hmain := hfac0 i hi
      rw [hprodsplit, hig] at hmain
      have hcancel : toPoly pm (N (xs.get ⟨i, hi⟩)) =
          ((xs.take i).map (fun t : ℤ => X - C ((t : ℤ) : ZMod pm))).prod *
            ((xs.drop (i + 1)).map (fun t : ℤ => X - C ((t : ℤ) : ZMod pm))).prod := by
        apply mul_left_cancel₀
          (Polynomial.X_sub_C_ne_zero ((xs.get ⟨i, hi⟩ : ℤ) : ZMod pm))
        rw [← hmain]
        ring
      rw [hig, hcancel, Polynomial.eval_mul]
      apply mul_ne_zero
      · rw [Polynomial.eval_list_prod, List.map_map]
        apply List.prod_ne_zero
        intro hmem0
        obtain ⟨e, hemem, heval⟩ := List.mem_map.mp hmem0
        obtain ⟨⟨m, hm⟩, hget⟩ := List.mem_iff_get.mp hemem
        have hmi : m < i := by
          have := hm
          simp [List.length_take] at this
          omega
        have hmk : m < k := by omega
        have he2 : e = xs.get ⟨m, hmk⟩ := by
          rw [← hget, ← List.get_take xs hmk hmi]
        simp only [Function.comp, Polynomial.eval_sub, Polynomial.eval_X,
          Polynomial.eval_C] at heval
        have hcontra : ((xs.get ⟨i, hi⟩ : ℤ) : ZMod pm) = ((e : ℤ) : ZMod pm) :=
          sub_eq_zero.mp heval
        rw [he2] at hcontra
        apply hcastinj i m hi hmk (by omega)
        rw [getD_of_lt xs i 0 hi, getD_of_lt xs m 0 hmk]
        exact hcontra
      · rw [Polynomial.eval_list_prod, List.map_map]
        apply List.prod_ne_zero
        intro hmem0
        obtain ⟨e, hemem, heval⟩ := List.mem_map.mp hmem0
        obtain ⟨⟨m, hm⟩, hget⟩ := List.mem_iff_get.mp hemem
        have hmk : i + 1 + m < k := by
          have := hm
          simp [List.length_drop] at this
          omega
        have he2 : e = xs.get ⟨i + 1 + m, hmk⟩ := by
          rw [← hget]
          have := List.get_drop xs (show i + 1 + m < xs.length from hmk)
          exact this.symm
        simp only [Function.comp, Polynomial.eval_sub, Polynomial.eval_X,
          Polynomial.eval_C] at heval
        have hcontra : ((xs.get ⟨i, hi⟩ : ℤ) : ZMod pm) = ((e : ℤ) : ZMod pm) :=
          sub_eq_zero.mp heval
        rw [he2] at hcontra
        apply hcastinj i (i + 1 + m) hi hmk (by omega)
        rw [getD_of_lt xs i 0 hi, getD_of_lt xs (i + 1 + m) 0 hmk]
        exact hcontra
    -- the computed pipeline
    have hmapM : xs.mapM (fun c => divPolys pm root [-c, 1]) = .ok (xs.map N) :=
      mapM_ok _ N xs (fun c _ => hdp c)
    set denominators : List ℤ :=
      List.zipWith (fun numi xi => evalPolyAt pm numi xi) (xs.map N) xs with hdendef
    have hdenlen : denominators.length = k := by
      rw [hdendef]
      simp [List.length_zipWith]
    have hdengetD : ∀ j, j < k → denominators.getD j 0 =
        evalPolyAt pm (N (xs.getD j 0)) (xs.getD j 0) := by
      intro j hj
      rw [hdendef, getD_zipWith _ (xs.map N) xs j [] 0 0 (by simpa using hj) hj]
      rw [getD_map_of_lt N xs j 0 [] hj]
    have hdenent : ∀ e ∈ denominators, 0 ≤ e ∧ e < pm := by
      intro e he
      obtain ⟨⟨m, hm⟩, hget⟩ := List.mem_iff_get.mp he
      have hmk : m < k := by rw [hdenlen] at hm; exact hm
      rw [← getD_of_lt denominators m 0 hm, hdengetD m hmk] at hget
      rw [← hget]
      exact evalPolyAt_range pm hp0 _ _ (hNent _)
    have hinv : invVectorElements pm denominators = denominators.map (inv pm) :=
      invVectorElements_map pm hp denominators hdenent
    set inverted : List ℤ := invVectorElements pm denominators with hinvdef
    have hinvlen : inverted.length = k := by
      rw [hinv, List.length_map, hdenlen]
    have hinvgetD : ∀ j, j < k →
        inverted.getD j 0 = inv pm (denominators.getD j 0) := by
      intro j hj
      rw [hinv, getD_map_of_lt (inv pm) denominators j 0 0 (by omega)]
    set ts : List (List ℤ × (ℤ × ℤ)) := (xs.map N).zip (ys.zip inverted) with htsdef
    have htslen : ts.length = k := by
      rw [htsdef]
      simp [List.length_zip]
      omega
    have htsgetD : ∀ j, j < k → ts.getD j ([], (0, 0)) =
        (N (xs.getD j 0), (ys.getD j 0, inv pm (denominators.getD j 0))) := by
      intro j hj
      rw [htsdef, getD_zip (xs.map N) (ys.zip inverted) j [] (0, 0)
        (by simpa using hj) (by simp [List.length_zip]; omega)]
      rw [getD_zip ys inverted j 0 0 (by omega) (by omega)]
      rw [getD_map_of_lt N xs j 0 [] hj, hinvgetD j hj]
    set L : List ℤ := ts.foldl
      (fun res t => accumStep pm t.2.1 (jsMod pm (t.2.1 * t.2.2)) res t.1)
      (List.replicate ys.length 0) with hLdef
    refine ⟨L, ?_, ?_, ?_⟩
    · rw [interpolate, if_neg (by omega), hmapM]
      rfl
    · rw [hLdef, accumFold_length]
      simp
    · intro i hi
      have hyi : 0 ≤ ys.getD i 0 ∧ ys.getD i 0 < pm := by
        have hik : i < ys.length := by omega
        rw [getD_of_lt ys i 0 hik]
        exact hys _ (List.get_mem ys i hik)
      have hLent : ∀ e ∈ L, 0 ≤ e ∧ e < pm := by
        rw [hLdef]
        apply accumFold_entries pm hp0
        intro e he
        have : e = 0 := List.eq_of_mem_replicate he
        rw [this]
        exact ⟨le_rfl, by exact_mod_cast hp0⟩
      have hts1len : ∀ t ∈ ts, t.1.length = (List.replicate ys.length (0 : ℤ)).length := by
        intro t ht
        have h1 := (List.of_mem_zip (by rw [htsdef] at ht; exact ht)).1
        obtain ⟨c, _, hc⟩ := List.mem_map.mp h1
        rw [← hc, hNlen c]
        simp
        omega
      have hLpoly : toPoly pm L =
          (ts.map (fun t => C ((jsMod pm (t.2.1 * t.2.2) : ℤ) : ZMod pm) *
            toPoly pm t.1)).sum := by
        rw [hLdef, toPoly_accumFold pm hp0 ts _ hts1len, toPoly_replicate_zero, zero_add]
      -- the cast-level evaluation
      have hcast : ((evalPolyAt pm L (xs.getD i 0) : ℤ) : ZMod pm) =
          ((ys.getD i 0 : ℤ) : ZMod pm) := by
        rw [evalPolyAt_cast pm hp0 L (xs.getD i 0), hLpoly]
        have hev : Polynomial.eval ((xs.getD i 0 : ℤ) : ZMod pm)
            ((ts.map (fun t => C ((jsMod pm (t.2.1 * t.2.2) : ℤ) : ZMod pm) *
              toPoly pm t.1)).sum) =
            ((ts.map (fun t => C ((jsMod pm (t.2.1 * t.2.2) : ℤ) : ZMod pm) *
              toPoly pm t.1)).map
              (Polynomial.eval ((xs.getD i 0 : ℤ) : ZMod pm))).sum := by
          have := map_list_sum (Polynomial.evalRingHom ((xs.getD i 0 : ℤ) : ZMod pm))
            (ts.map (fun t => C ((jsMod pm (t.2.1 * t.2.2) : ℤ) : ZMod pm) *
              toPoly pm t.1))
          simpa [Polynomial.coe_evalRingHom] using this
        rw [hev, List.map_map,
          list_map_sum_eq ([], (0, 0))
            ((Polynomial.eval ((xs.getD i 0 : ℤ) : ZMod pm)) ∘
              (fun t => C ((jsMod pm (t.2.1 * t.2.2) : ℤ) : ZMod pm) * toPoly pm t.1)) ts,
          htslen]
        rw [Finset.sum_eq_single i ?_ ?_]
        · rw [htsgetD i hi]
          show Polynomial.eval _ (C ((jsMod pm (ys.getD i 0 *
            inv pm (denominators.getD i 0)) : ℤ) : ZMod pm) *
            toPoly pm (N (xs.getD i 0))) = _
          rw [Polynomial.eval_mul, Polynomial.eval_C, cast_jsMod pm _ hp0]
          push_cast
          have hdc : ((denominators.getD i 0 : ℤ) : ZMod pm) =
              Polynomial.eval ((xs.getD i 0 : ℤ) : ZMod pm)
                (toPoly pm (N (xs.getD i 0))) := by
            rw [hdengetD i hi]
            exact evalPolyAt_cast pm hp0 _ _
          have hdnz : denominators.getD i 0 ≠ 0 := by
            intro h0
            apply hNevalden i hi
            rw [← hdc, h0]
            norm_num
          have hdrange : 0 ≤ denominators.getD i 0 ∧ denominators.getD i 0 < pm := by
            have hik : i < denominators.length := by omega
            rw [getD_of_lt denominators i 0 hik]
            exact hdenent _ (List.get_mem denominators i hik)
          have hdpos : 0 < denominators.getD i 0 := by
            rcases hdrange.1.lt_or_eq with h | h
            · exact h
            · exact absurd h.symm hdnz
          have hinv1 : ((inv pm (denominators.getD i 0) : ℤ) : ZMod pm) *
              ((denominators.getD i 0 : ℤ) : ZMod pm) = 1 := by
            have := inv_modEq pm hp1 (denominators.getD i 0)
              (isCoprime_of_prime_range pm hp _ hdpos hdrange.2)
            have hc := (ZMod.intCast_eq_intCast_iff _ _ _).mpr this
            push_cast at hc
            exact hc
          rw [← hdc, mul_assoc, hinv1, mul_one]
        · intro b hb hbne
          rw [htsgetD b (Finset.mem_range.mp hb)]
          show Polynomial.eval _ (C ((jsMod pm (ys.getD b 0 *
            inv pm (denominators.getD b 0)) : ℤ) : ZMod pm) *
            toPoly pm (N (xs.getD b 0))) = _
          rw [Polynomial.eval_mul,
            hNeval0 b i (Finset.mem_range.mp hb) hi (Ne.symm hbne), mul_zero]
        · intro hnot
          exact absurd (Finset.mem_range.mpr hi) hnot
      have hLrange := evalPolyAt_range pm hp0 L (xs.getD i 0) hLent
      exact eq_of_cast_eq pm _ _ hLrange.1 hLrange.2 hyi.1 hyi.2 hcast

/-- Witness for C5 at `pm = 5`, nodes `[2, 3]`, values `[4, 4]`. -/
theorem claim5_witness :
    ∃ L, interpolate 5 [2, 3] [4, 4] = .ok L ∧ L.length = ([4, 4] : List ℤ).length ∧
      ∀ i, i < ([2, 3] : List ℤ).length →
        evalPolyAt 5 L (([2, 3] : List ℤ).getD i 0) = ([4, 4] : List ℤ).getD i 0 :=
  claim5_interpolate 5 (by norm_num) [2, 3] [4, 4] rfl (by decide) (by decide) (by decide)

/-- Witness for C4 at `p = 7`, `b = 3`, `e = -1`. -/
theorem claim4_witness :
    Nat.Prime 7 ∧ (0 : ℤ) ≤ 3 ∧ (3 : ℤ) < 7 ∧ exp 7 3 (-1) = exp 7 (inv 7 3) 1 := by
  refine ⟨by norm_num, by norm_num, by norm_num, ?_⟩
  have h := (claim4_exp 7 (by norm_num) 3 (-1) (by norm_num) (by norm_num)).2.2.2.1
    (by norm_num)
  norm_num at h
  exact h

/-! ### The FFT pipeline: `getPowerCycle`, `fastFF`, `evalPolyAtRoots`,
`interpolateRoots` -/

/-- The `while (value !== 1n)` loop of `PrimeField.getPowerCycle`, with a fuel
bound standing in for the (potentially non-terminating) JS loop: `none` means
the loop did not reach `1` within `fuel` iterations. -/
def pcAux (p : ℕ) (root : ℤ) : ℕ → ℤ → Option (List ℤ)
  | 0, value => if value = 1 then some [] else none
  | fuel + 1, value =>
    if value = 1 then some []
    else Option.map (List.cons value) (pcAux p root fuel (mul p value root))

/-- `PrimeField.getPowerCycle`: `[1]` followed by the powers of `root` pushed
until the running value returns to `1`. -/
def getPowerCycle (p : ℕ) (root : ℤ) (fuel : ℕ) : Option (List ℤ) :=
  Option.map (List.cons 1) (pcAux p root fuel root)

/-- One iteration `i` of the 4-point base transform of `fastFF`:
`mod(values[offset]*roots[0] + values[offset+step]*roots[i*step]
 + values[offset+2*step]*roots[i*2%4*step]
 + values[offset+3*step]*roots[i*3%4*step])`, with every array read
performed through `jsGetE` in source order. -/
def ftPoint (p : ℕ) (values roots : List ℤ) (offset step i : ℕ) :
    Except String ℤ :=
  (jsGetE values offset).bind fun a0 =>
  (jsGetE roots 0).bind fun b0 =>
  (jsGetE values (offset + step)).bind fun a1 =>
  (jsGetE roots (i * step)).bind fun b1 =>
  (jsGetE values (offset + 2 * step)).bind fun a2 =>
  (jsGetE roots (i * 2 % 4 * step)).bind fun b2 =>
  (jsGetE values (offset + 3 * step)).bind fun a3 =>
  (jsGetE roots (i * 3 % 4 * step)).bind fun b3 =>
  Except.ok (jsMod p (a0 * b0 + a1 * b1 + a2 * b2 + a3 * b3))

/-- The `resultLength <= 4` branch of `fastFF`: a simple 4-point transform,
always producing 4 outputs (`new Array<bigint>(4)`). -/
def ftBase (p : ℕ) (values roots : List ℤ) (offset step : ℕ) :
    Except String (List ℤ) :=
  (ftPoint p values roots offset step 0).bind fun c0 =>
  (ftPoint p values roots offset step 1).bind fun c1 =>
  (ftPoint p values roots offset step 2).bind fun c2 =>
  (ftPoint p values roots offset step 3).bind fun c3 =>
  Except.ok [c0, c1, c2, c3]

/-- The butterfly loop of `fastFF`: for `count` iterations starting at index
`i`, read `even[i]`, `odd[i]`, `roots[i*step]` and emit the first-half
entries `add(x, y*r)` and second-half entries `sub(x, y*r)`. -/
def cmbAux (p : ℕ) (even odd roots : List ℤ) (step : ℕ) :
    ℕ → ℕ → Except String (List ℤ × List ℤ)
  | _, 0 => Except.ok ([], [])
  | i, count + 1 =>
    (jsGetE even i).bind fun x =>
    (jsGetE odd i).bind fun y =>
    (jsGetE roots (i * step)).bind fun r =>
    (cmbAux p even odd roots step (i + 1) count).bind fun rest =>
    Except.ok (add p x (y * r) :: rest.1, sub p x (y * r) :: rest.2)

/-- `fastFF(values, roots, depth, offset, F)`.  `step = 1 << depth` and
`resultLength = roots.length / step`; on the power-of-two lengths reachable
from `evalPolyAtRoots` / `interpolateRoots` (both guard
`isPowerOf2(roots.length)`) the JS float division agrees with `Nat` division
throughout the recursion.  The JS recursion always terminates because
`resultLength` halves at each level; the `fuel` argument is an upper bound on
the remaining recursion depth, and callers pass `roots.length`, which always
suffices. -/
def fastFF (p : ℕ) (values roots : List ℤ) : ℕ → ℕ → ℕ → Except String (List ℤ)
  | 0, depth, offset =>
    if roots.length / 2 ^ depth ≤ 4 then
      ftBase p values roots offset (2 ^ depth)
    else Except.error "InternalFuel"
  | fuel + 1, depth, offset =>
    if roots.length / 2 ^ depth ≤ 4 then
      ftBase p values roots offset (2 ^ depth)
    else
      (fastFF p values roots fuel (depth + 1) offset).bind fun even =>
      (fastFF p values roots fuel (depth + 1) (offset + 2 ^ depth)).bind fun odd =>
      (cmbAux p even odd roots (2 ^ depth) 0
        (roots.length / 2 ^ depth / 2)).bind fun pr =>
      Except.ok (pr.1 ++ pr.2)

/-- `PrimeField.evalPolyAtRoots`: guard the two length conditions, pad the
coefficient list with zeros up to `roots.length`, and run `fastFF` from depth
0, offset 0. -/
def evalPolyAtRoots (p : ℕ) (poly roots : List ℤ) : Except String (List ℤ) :=
  if roots.length < poly.length then
    Except.error "Number of roots of unity cannot be smaller than number of values"
  else if isPowerOfTwo roots.length then
    fastFF p (poly ++ List.replicate (roots.length - poly.length) 0) roots
      roots.length 0 0
  else Except.error "Number of roots of unity must be 2^n"

/-- The `reversedRoots` array of `PrimeField.interpolateRoots`:
`reversedRoots[0] = 1` and `reversedRoots[j] = roots[n - j]` for
`1 <= j < n`.  (For the empty list the unconditional `reversedRoots[0] = 1n`
write grows the JS array, giving `[1]`.) -/
def reversedRoots (roots : List ℤ) : List ℤ := 1 :: (roots.drop 1).reverse

/-- `PrimeField.interpolateRoots`: guard, compute `invlen = exp(n, p-2)`, run
`fastFF` over the reversed root cycle and scale every entry by `invlen`. -/
def interpolateRoots (p : ℕ) (roots ys : List ℤ) : Except String (List ℤ) :=
  if roots.length ≠ ys.length then
    Except.error "Number of roots of unity must be the same as number of y coordinates"
  else if isPowerOfTwo roots.length then
    (exp p (ys.length : ℤ) ((p : ℤ) - 2)).bind fun invlen =>
      (fastFF p ys (reversedRoots roots) roots.length 0 0).bind fun result =>
        Except.ok (result.map fun r => jsMod p (r * invlen))
  else Except.error "Number of roots of unity must be 2^n"

theorem jsGetE_ok (l : List ℤ) (i : ℕ) (h : i < l.length) :
    jsGetE l i = .ok (l.getD i 0) := by
  unfold jsGetE
  rw [List.get?_eq_get h, getD_of_lt l i 0 h]

theorem pow_reduce (p : ℕ) (w : ZMod p) (n : ℕ) (hw : w ^ n = 1) (a : ℕ) :
    w ^ a = w ^ (a % n) := by
  conv_lhs => rw [← Nat.div_add_mod a n]
  rw [pow_add, pow_mul, hw, one_pow, one_mul]

theorem sum_two_split {β : Type} [AddCommMonoid β] (m : ℕ) (f : ℕ → β) :
    (Finset.range (2 * m)).sum f =
      (Finset.range m).sum (fun j => f (2 * j)) +
      (Finset.range m).sum (fun j => f (2 * j + 1)) := by
  induction m with
  | zero => simp
  | succ m ih =>
    have h2 : 2 * (m + 1) = 2 * m + 1 + 1 := by ring
    rw [h2, Finset.sum_range_succ, Finset.sum_range_succ, Finset.sum_range_succ,
      Finset.sum_range_succ, ih]
    abel

theorem list_eq_of_getD (l₁ l₂ : List ℤ) (hlen : l₁.length = l₂.length)
    (h : ∀ i, i < l₁.length → l₁.getD i 0 = l₂.getD i 0) : l₁ = l₂ := by
  apply List.ext_get hlen
  intro n h₁ h₂
  rw [← getD_of_lt l₁ n 0 h₁, ← getD_of_lt l₂ n 0 h₂]
  exact h n h₁

/-- Reducing a multiple-of-`2^d` root index modulo 4 does not change the root
power, because `4 * 2^d` is the full cycle length. -/
theorem rootPow_mod4 (p k d : ℕ) (w : ZMod p) (hw1 : w ^ 2 ^ k = 1)
    (hd : d + 2 = k) (m : ℕ) : w ^ (m % 4 * 2 ^ d) = w ^ (m * 2 ^ d) := by
  have h4 : 4 * 2 ^ d = 2 ^ k := by
    rw [← hd, pow_add]
    ring
  rw [← Nat.mul_mod_mul_right (2 ^ d) m 4, h4, ← pow_reduce p w (2 ^ k) hw1]

theorem ftPoint_ok (p : ℕ) (values roots : List ℤ) (offset s i : ℕ)
    (hr0 : 0 < roots.length)
    (hv : offset + 3 * s < values.length)
    (hr1 : i * s < roots.length)
    (hr2 : i * 2 % 4 * s < roots.length)
    (hr3 : i * 3 % 4 * s < roots.length) :
    ftPoint p values roots offset s i = .ok (jsMod p
      (values.getD offset 0 * roots.getD 0 0 +
       values.getD (offset + s) 0 * roots.getD (i * s) 0 +
       values.getD (offset + 2 * s) 0 * roots.getD (i * 2 % 4 * s) 0 +
       values.getD (offset + 3 * s) 0 * roots.getD (i * 3 % 4 * s) 0)) := by
  rw [ftPoint, jsGetE_ok values offset (by omega), jsGetE_ok roots 0 hr0,
    jsGetE_ok values (offset + s) (by omega), jsGetE_ok roots (i * s) hr1,
    jsGetE_ok values (offset + 2 * s) (by omega), jsGetE_ok roots _ hr2,
    jsGetE_ok values (offset + 3 * s) (by omega), jsGetE_ok roots _ hr3]
  rfl

theorem ftBase_spec (p : ℕ) (hp0 : 0 < p) (k : ℕ) (w : ZMod p)
    (hw1 : w ^ 2 ^ k = 1) (values roots : List ℤ)
    (hvlen : values.length = 2 ^ k) (hrlen : roots.length = 2 ^ k)
    (hroots : ∀ m, m < 2 ^ k → ((roots.getD m 0 : ℤ) : ZMod p) = w ^ m)
    (d offset : ℕ) (hd : d + 2 = k) (hoff : offset < 2 ^ d) :
    ∃ out, ftBase p values roots offset (2 ^ d) = .ok out ∧
      out.length = 4 ∧ (∀ e ∈ out, 0 ≤ e ∧ e < p) ∧
      ∀ i, i < 4 → ((out.getD i 0 : ℤ) : ZMod p) =
        (Finset.range 4).sum
          (fun j => ((values.getD (offset + j * 2 ^ d) 0 : ℤ) : ZMod p) *
            w ^ (i * j * 2 ^ d)) := by
  have h4 : 4 * 2 ^ d = 2 ^ k := by
    rw [← hd, pow_add]
    ring
  have hvl : ∀ i : ℕ, i < 4 → offset + 3 * 2 ^ d < values.length := by
    intro i _
    rw [hvlen, ← h4]
    omega
  have hri : ∀ m : ℕ, m ≤ 3 → m * 2 ^ d < roots.length := by
    intro m hm
    rw [hrlen, ← h4]
    have h2d : 0 < 2 ^ d := Nat.pos_pow_of_pos d (by norm_num)
    calc m * 2 ^ d ≤ 3 * 2 ^ d := by
          exact Nat.mul_le_mul_right _ hm
      _ < 4 * 2 ^ d := by omega
  set mval : ℕ → ℤ := fun i => jsMod p
      (values.getD offset 0 * roots.getD 0 0 +
       values.getD (offset + 2 ^ d) 0 * roots.getD (i * 2 ^ d) 0 +
       values.getD (offset + 2 * 2 ^ d) 0 * roots.getD (i * 2 % 4 * 2 ^ d) 0 +
       values.getD (offset + 3 * 2 ^ d) 0 * roots.getD (i * 3 % 4 * 2 ^ d) 0)
    with hmval
  have hpt : ∀ i : ℕ, i < 4 →
      ftPoint p values roots offset (2 ^ d) i = .ok (mval i) := by
    intro i hi
    rw [hmval]
    exact ftPoint_ok p values roots offset (2 ^ d) i
      (by rw [hrlen]; exact Nat.pos_pow_of_pos k (by norm_num))
      (hvl i hi) (hri i (by omega)) (hri (i * 2 % 4) (by omega))
      (hri (i * 3 % 4) (by omega))
  have hcast : ∀ i : ℕ, i < 4 →
      ((mval i : ℤ) : ZMod p) =
      (Finset.range 4).sum
        (fun j => ((values.getD (offset + j * 2 ^ d) 0 : ℤ) : ZMod p) *
          w ^ (i * j * 2 ^ d)) := by
    intro i hi
    rw [hmval]
    show ((jsMod p _ : ℤ) : ZMod p) = _
    rw [cast_jsMod p _ hp0]
    push_cast
    rw [hroots 0 (Nat.pos_pow_of_pos k (by norm_num)),
      hroots (i * 2 ^ d) (by rw [← hrlen]; exact hri i (by omega)),
      hroots (i * 2 % 4 * 2 ^ d) (by rw [← hrlen]; exact hri _ (by omega)),
      hroots (i * 3 % 4 * 2 ^ d) (by rw [← hrlen]; exact hri _ (by omega)),
      rootPow_mod4 p k d w hw1 hd (i * 2), rootPow_mod4 p k d w hw1 hd (i * 3)]
    rw [Finset.sum_range_succ, Finset.sum_range_succ, Finset.sum_range_succ,
      Finset.sum_range_succ, Finset.sum_range_zero]
    have e0 : i * 0 * 2 ^ d = 0 := by ring
    have e1 : i * 1 * 2 ^ d = i * 2 ^ d := by ring
    have e2 : i * 2 * 2 ^ d = i * 2 * 2 ^ d := rfl
    have e3 : i * 3 * 2 ^ d = i * 3 * 2 ^ d := rfl
    rw [e0, e1]
    simp only [pow_zero, Nat.zero_mul, Nat.mul_zero, zero_mul, mul_one, add_zero,
      Nat.mul_one, zero_add]
    ring
  refine ⟨[mval 0, mval 1, mval 2, mval 3], ?_, rfl, ?_, ?_⟩
  · rw [ftBase, hpt 0 (by omega), hpt 1 (by omega), hpt 2 (by omega),
      hpt 3 (by omega)]
    rfl
  · intro e he
    simp only [List.mem_cons, List.not_mem_nil, or_false] at he
    rcases he with h | h | h | h <;>
      (rw [h, hmval]; exact ⟨jsMod_nonneg p _ hp0, jsMod_lt p _ hp0⟩)
  · intro i hi
    interval_cases i
    · exact hcast 0 (by omega)
    · exact hcast 1 (by omega)
    · exact hcast 2 (by omega)
    · exact hcast 3 (by omega)

theorem cmbAux_spec (p : ℕ) (even odd roots : List ℤ) (step : ℕ) :
    ∀ count i, i + count ≤ even.length → i + count ≤ odd.length →
      (∀ t, t < count → (i + t) * step < roots.length) →
    ∃ fh sh, cmbAux p even odd roots step i count = .ok (fh, sh) ∧
      fh.length = count ∧ sh.length = count ∧
      ∀ t, t < count →
        fh.getD t 0 = add p (even.getD (i + t) 0)
          (odd.getD (i + t) 0 * roots.getD ((i + t) * step) 0) ∧
        sh.getD t 0 = sub p (even.getD (i + t) 0)
          (odd.getD (i + t) 0 * roots.getD ((i + t) * step) 0) := by
  intro count
  induction count with
  | zero =>
    intro i _ _ _
    exact ⟨[], [], rfl, rfl, rfl, fun t ht => absurd ht (by omega)⟩
  | succ count ih =>
    intro i he ho hr
    obtain ⟨fh, sh, hrun, hfl, hsl, hval⟩ := ih (i + 1) (by omega) (by omega)
      (fun t ht => by
        have := hr (t + 1) (by omega)
        simpa [Nat.add_assoc, Nat.add_comm 1 t] using this)
    refine ⟨add p (even.getD i 0) (odd.getD i 0 * roots.getD (i * step) 0) :: fh,
      sub p (even.getD i 0) (odd.getD i 0 * roots.getD (i * step) 0) :: sh,
      ?_, by simp [hfl], by simp [hsl], ?_⟩
    · show (jsGetE even i).bind _ = _
      rw [jsGetE_ok even i (by omega), jsGetE_ok odd i (by omega),
        jsGetE_ok roots (i * step) (by simpa using hr 0 (by omega))]
      show (cmbAux p even odd roots step (i + 1) count).bind _ = _
      rw [hrun]
      rfl
    · intro t ht
      match t with
      | 0 => simp
      | t + 1 =>
        have h := hval t (by omega)
        have hidx : i + 1 + t = i + (t + 1) := by omega
        rw [hidx] at h
        exact ⟨h.1, h.2⟩

theorem fastFF_spec (p : ℕ) (hp0 : 0 < p) (k : ℕ) (w : ZMod p)
    (hw1 : w ^ 2 ^ k = 1) (hwh : w ^ (2 ^ k / 2) = -1)
    (values roots : List ℤ)
    (hvlen : values.length = 2 ^ k) (hrlen : roots.length = 2 ^ k)
    (hroots : ∀ m, m < 2 ^ k → ((roots.getD m 0 : ℤ) : ZMod p) = w ^ m) :
    ∀ fuel d offset, d + 2 ≤ k → k ≤ d + 2 + fuel → offset < 2 ^ d →
    ∃ out, fastFF p values roots fuel d offset = .ok out ∧
      out.length = 2 ^ (k - d) ∧ (∀ e ∈ out, 0 ≤ e ∧ e < p) ∧
      ∀ i, i < 2 ^ (k - d) → ((out.getD i 0 : ℤ) : ZMod p) =
        (Finset.range (2 ^ (k - d))).sum
          (fun j => ((values.getD (offset + j * 2 ^ d) 0 : ℤ) : ZMod p) *
            w ^ (i * j * 2 ^ d)) := by
  intro fuel
  induction fuel with
  | zero =>
    intro d offset hd hk hoff
    have hdk : d + 2 = k := by omega
    have hcond : roots.length / 2 ^ d ≤ 4 := by
      rw [hrlen, Nat.pow_div (by omega) (by norm_num)]
      have : k - d = 2 := by omega
      rw [this]
    obtain ⟨out, hrun, hlen, hent, hsum⟩ :=
      ftBase_spec p hp0 k w hw1 values roots hvlen hrlen hroots d offset hdk hoff
    refine ⟨out, ?_, ?_, hent, ?_⟩
    · rw [fastFF, if_pos hcond]
      exact hrun
    · rw [hlen]
      have h2 : k - d = 2 := by omega
      rw [h2]
      have h4 : (2 : ℕ) ^ 2 = 4 := by norm_num
      rw [h4]
    · have h2 : k - d = 2 := by omega
      have h4 : (2 : ℕ) ^ 2 = 4 := by norm_num
      rw [h2, h4]
      exact fun i hi => hsum i hi
  | succ fuel ih =>
    intro d offset hd hk hoff
    rcases Nat.lt_or_ge (d + 2) k with hdk | hdk
    · -- recursive case: k > d + 2
      have hklen : roots.length / 2 ^ d = 2 ^ (k - d) := by
        rw [hrlen, Nat.pow_div (by omega) (by norm_num)]
      have hcond : ¬ roots.length / 2 ^ d ≤ 4 := by
        rw [hklen]
        have h8 : (8 : ℕ) ≤ 2 ^ (k - d) := by
          calc (8 : ℕ) = 2 ^ 3 := by norm_num
            _ ≤ 2 ^ (k - d) := Nat.pow_le_pow_right (by norm_num) (by omega)
        omega
      set m : ℕ := 2 ^ (k - d - 1) with hm
      have hm2 : 2 * m = 2 ^ (k - d) := by
        rw [hm, ← pow_succ']
        congr 1
        omega
      have hs2 : (2 : ℕ) ^ (d + 1) = 2 ^ d * 2 := by rw [pow_succ]
      obtain ⟨even, herun, helen, heent, hesum⟩ := ih (d + 1) offset (by omega)
        (by omega) (by calc offset < 2 ^ d := hoff
          _ ≤ 2 ^ (d + 1) := Nat.pow_le_pow_right (by norm_num) (by omega))
      obtain ⟨odd, horun, holen, hoent, hosum⟩ := ih (d + 1) (offset + 2 ^ d)
        (by omega) (by omega) (by rw [hs2]; omega)
      have hm' : 2 ^ (k - (d + 1)) = m := by
        rw [hm, Nat.sub_sub]
      rw [hm'] at helen holen hesum hosum
      have hcount : roots.length / 2 ^ d / 2 = m := by
        rw [hklen, ← hm2, Nat.mul_div_cancel_left m (by norm_num)]
      have hsk : 2 ^ d * 2 ^ (k - d) = 2 ^ k := by
        rw [← pow_add]
        congr 1
        omega
      have hrootsidx : ∀ t, t < m → (0 + t) * 2 ^ d < roots.length := by
        intro t ht
        rw [hrlen, Nat.zero_add]
        calc t * 2 ^ d < m * 2 ^ d := by
              have := Nat.pos_pow_of_pos d (show 0 < 2 by norm_num)
              exact (Nat.mul_lt_mul_right this).mpr ht
          _ ≤ 2 ^ (k - d) * 2 ^ d := by
              apply Nat.mul_le_mul_right
              rw [hm]
              exact Nat.pow_le_pow_right (by norm_num) (by omega)
          _ = 2 ^ k := by rw [Nat.mul_comm]; exact hsk
      obtain ⟨fh, sh, hcrun, hfl, hsl, hval⟩ := cmbAux_spec p even odd roots
        (2 ^ d) m 0 (by omega) (by omega) hrootsidx
      have hidx : ∀ t, t < m → t * 2 ^ d < 2 ^ k := by
        intro t ht
        have := hrootsidx t ht
        rwa [hrlen, Nat.zero_add] at this
      -- the two halves as ZMod sums
      have hfh : ∀ i, i < m → ((fh.getD i 0 : ℤ) : ZMod p) =
          ((even.getD i 0 : ℤ) : ZMod p) +
          ((odd.getD i 0 : ℤ) : ZMod p) * w ^ (i * 2 ^ d) := by
        intro i hi
        rw [(hval i hi).1]
        show ((add p _ _ : ℤ) : ZMod p) = _
        rw [cast_add p _ _ hp0]
        push_cast
        rw [Nat.zero_add, hroots (i * 2 ^ d) (hidx i hi)]
      have hsh : ∀ i, i < m → ((sh.getD i 0 : ℤ) : ZMod p) =
          ((even.getD i 0 : ℤ) : ZMod p) -
          ((odd.getD i 0 : ℤ) : ZMod p) * w ^ (i * 2 ^ d) := by
        intro i hi
        rw [(hval i hi).2]
        show ((sub p _ _ : ℤ) : ZMod p) = _
        rw [cast_sub p _ _ hp0]
        push_cast
        rw [Nat.zero_add, hroots (i * 2 ^ d) (hidx i hi)]
      refine ⟨fh ++ sh, ?_, ?_, ?_, ?_⟩
      · rw [fastFF, if_neg hcond, herun]
        show (fastFF p values roots fuel (d + 1) (offset + 2 ^ d)).bind _ = _
        rw [horun]
        show (cmbAux p even odd roots (2 ^ d) 0 (roots.length / 2 ^ d / 2)).bind _ = _
        rw [hcount, hcrun]
        rfl
      · rw [List.length_append, hfl, hsl, ← hm2]
        ring
      · intro e he
        rcases List.mem_append.mp he with h | h
        · obtain ⟨⟨t, htl⟩, hget⟩ := List.mem_iff_get.mp h
          have htm : t < m := by rwa [hfl] at htl
          rw [← getD_of_lt fh t 0 htl, (hval t htm).1] at hget
          rw [← hget]
          exact ⟨jsMod_nonneg p _ hp0, jsMod_lt p _ hp0⟩
        · obtain ⟨⟨t, htl⟩, hget⟩ := List.mem_iff_get.mp h
          have htm : t < m := by rwa [hsl] at htl
          rw [← getD_of_lt sh t 0 htl, (hval t htm).2] at hget
          rw [← hget]
          exact ⟨jsMod_nonneg p _ hp0, jsMod_lt p _ hp0⟩
      · intro i hi
        rw [← hm2] at hi
        -- split the target sum into even and odd parts
        have hsplit : ∀ i' : ℕ,
            (Finset.range (2 ^ (k - d))).sum
              (fun j => ((values.getD (offset + j * 2 ^ d) 0 : ℤ) : ZMod p) *
                w ^ (i' * j * 2 ^ d)) =
            (Finset.range m).sum
              (fun j => ((values.getD (offset + j * 2 ^ (d + 1)) 0 : ℤ) : ZMod p) *
                w ^ (i' * j * 2 ^ (d + 1))) +
            (Finset.range m).sum
              (fun j => ((values.getD (offset + 2 ^ d + j * 2 ^ (d + 1)) 0 : ℤ) : ZMod p) *
                w ^ (i' * (2 * j + 1) * 2 ^ d)) := by
          intro i'
          rw [← hm2, sum_two_split]
          congr 1
          · apply Finset.sum_congr rfl
            intro j _
            have h1 : offset + 2 * j * 2 ^ d = offset + j * 2 ^ (d + 1) := by
              rw [hs2]
              ring
            have h2 : i' * (2 * j) * 2 ^ d = i' * j * 2 ^ (d + 1) := by
              rw [hs2]
              ring
            rw [h1, h2]
          · apply Finset.sum_congr rfl
            intro j _
            have h1 : offset + (2 * j + 1) * 2 ^ d = offset + 2 ^ d + j * 2 ^ (d + 1) := by
              rw [hs2]
              ring
            rw [h1]
        rcases Nat.lt_or_ge i m with him | him
        · -- first half: out[i] = fh[i]
          have hget : (fh ++ sh).getD i 0 = fh.getD i 0 :=
            List.getD_append fh sh 0 i (by omega)
          have hodd : ((Finset.range m).sum
              (fun j => ((values.getD (offset + 2 ^ d + j * 2 ^ (d + 1)) 0 : ℤ) : ZMod p) *
                w ^ (i * j * 2 ^ (d + 1)))) * w ^ (i * 2 ^ d) =
              (Finset.range m).sum
              (fun j => ((values.getD (offset + 2 ^ d + j * 2 ^ (d + 1)) 0 : ℤ) : ZMod p) *
                w ^ (i * (2 * j + 1) * 2 ^ d)) := by
            rw [Finset.sum_mul]
            apply Finset.sum_congr rfl
            intro j _
            have hexp : i * (2 * j + 1) * 2 ^ d = i * j * 2 ^ (d + 1) + i * 2 ^ d := by
              rw [hs2]
              ring
            rw [hexp, pow_add w _ _]
            ring
          rw [hget, hfh i him, hsplit i, hesum i him, hosum i him, hodd]
        · -- second half: out[i] = sh[i - m]
          set i' : ℕ := i - m with hi'
          have hieq : i = i' + m := by omega
          have hi'm : i' < m := by omega
          have hget : (fh ++ sh).getD i 0 = sh.getD i' 0 := by
            rw [List.getD_append_right fh sh 0 i (by omega), hfl]
          have hmd : m * 2 ^ d = 2 ^ k / 2 := by
            rw [hm, ← pow_add]
            have hk1 : k - d - 1 + d = k - 1 := by omega
            rw [hk1]
            have hks : (2 : ℕ) ^ k = 2 ^ (k - 1) * 2 := by
              rw [← pow_succ]
              congr 1
              omega
            rw [hks, Nat.mul_div_cancel _ (by norm_num)]
          have hwm : w ^ (m * 2 ^ d) = -1 := by rw [hmd]; exact hwh
          have hwm2 : w ^ (2 * (m * 2 ^ d)) = 1 := by
            have hfull : 2 * (m * 2 ^ d) = 2 ^ k := by
              rw [← Nat.mul_assoc, hm2, Nat.mul_comm]
              exact hsk
            rw [hfull, hw1]
          have heven2 : (Finset.range m).sum
              (fun j => ((values.getD (offset + j * 2 ^ (d + 1)) 0 : ℤ) : ZMod p) *
                w ^ (i * j * 2 ^ (d + 1))) =
              (Finset.range m).sum
              (fun j => ((values.getD (offset + j * 2 ^ (d + 1)) 0 : ℤ) : ZMod p) *
                w ^ (i' * j * 2 ^ (d + 1))) := by
            apply Finset.sum_congr rfl
            intro j _
            have hexp : i * j * 2 ^ (d + 1) =
                i' * j * 2 ^ (d + 1) + j * (2 * (m * 2 ^ d)) := by
              rw [hieq, hs2]
              ring
            have hx : w ^ (j * (2 * (m * 2 ^ d))) = 1 := by
              rw [pow_mul', hwm2, one_pow]
            rw [hexp, pow_add w _ _, hx, mul_one]
          have hodd2 : (Finset.range m).sum
              (fun j => ((values.getD (offset + 2 ^ d + j * 2 ^ (d + 1)) 0 : ℤ) : ZMod p) *
                w ^ (i * (2 * j + 1) * 2 ^ d)) =
              -(((Finset.range m).sum
                (fun j => ((values.getD (offset + 2 ^ d + j * 2 ^ (d + 1)) 0 : ℤ) : ZMod p) *
                  w ^ (i' * j * 2 ^ (d + 1)))) * w ^ (i' * 2 ^ d)) := by
            rw [Finset.sum_mul, ← Finset.sum_neg_distrib]
            apply Finset.sum_congr rfl
            intro j _
            have hexp : i * (2 * j + 1) * 2 ^ d =
                i' * j * 2 ^ (d + 1) + i' * 2 ^ d +
                  (j * (2 * (m * 2 ^ d)) + m * 2 ^ d) := by
              rw [hieq, hs2]
              ring
            have hx : w ^ (j * (2 * (m * 2 ^ d)) + m * 2 ^ d) = -1 := by
              rw [pow_add w _ _, pow_mul', hwm2, one_pow, one_mul, hwm]
            rw [hexp, pow_add w _ _, pow_add w _ _, hx]
            ring
          rw [hget, hsh i' hi'm, hsplit i, hesum i' hi'm, hosum i' hi'm, heven2,
            hodd2]
          ring
    · -- base case also available with fuel left: k = d + 2
      have hdk2 : d + 2 = k := by omega
      have hcond : roots.length / 2 ^ d ≤ 4 := by
        rw [hrlen, Nat.pow_div (by omega) (by norm_num)]
        have : k - d = 2 := by omega
        rw [this]
      obtain ⟨out, hrun, hlen, hent, hsum⟩ :=
        ftBase_spec p hp0 k w hw1 values roots hvlen hrlen hroots d offset hdk2 hoff
      refine ⟨out, ?_, ?_, hent, ?_⟩
      · rw [fastFF, if_pos hcond]
        exact hrun
      · rw [hlen]
        have h2 : k - d = 2 := by omega
        rw [h2]
        have h4 : (2 : ℕ) ^ 2 = 4 := by norm_num
        rw [h4]
      · have h2 : k - d = 2 := by omega
        have h4 : (2 : ℕ) ^ 2 = 4 := by norm_num
        rw [h2, h4]
        exact fun i hi => hsum i hi

theorem pcAux_spec (p : ℕ) (hp1 : 1 < p) (n : ℕ) (ω : ℤ)
    (hω0 : 0 ≤ ω) (hω1 : ω < p)
    (hord : orderOf ((ω : ℤ) : ZMod p) = n) (hn : 0 < n) :
    ∀ fuel j, 1 ≤ j → j ≤ n → n - j ≤ fuel →
      pcAux p ω fuel (jsMod p (ω ^ j)) =
        some ((List.range (n - j)).map (fun t => jsMod p (ω ^ (j + t)))) := by
  have hp0 : 0 < p := by omega
  have hpow1 : ((ω : ℤ) : ZMod p) ^ n = 1 := by
    rw [← hord]
    exact pow_orderOf_eq_one _
  have hone : jsMod p 1 = 1 := jsMod_eq_of_range p 1 hp0 (by norm_num)
    (by exact_mod_cast hp1)
  have hval_one : ∀ j, 0 < j → (jsMod p (ω ^ j) = 1 ↔ ((ω : ℤ) : ZMod p) ^ j = 1) := by
    intro j hj
    constructor
    · intro h
      have := congrArg (fun v : ℤ => ((v : ℤ) : ZMod p)) h
      simp only at this
      rw [cast_jsMod p _ hp0] at this
      push_cast at this
      exact_mod_cast this
    · intro h
      have hc : (((ω ^ j : ℤ) : ℤ) : ZMod p) = ((1 : ℤ) : ZMod p) := by
        push_cast
        exact_mod_cast h
      have := cast_jsMod p (ω ^ j) hp0
      apply eq_of_cast_eq p _ _ (jsMod_nonneg p _ hp0) (jsMod_lt p _ hp0)
        (by norm_num) (by exact_mod_cast hp1)
      rw [this]
      exact hc
  intro fuel
  induction fuel with
  | zero =>
    intro j hj1 hjn hfj
    have hjeq : j = n := by omega
    subst hjeq
    have h1 : jsMod p (ω ^ j) = 1 := (hval_one j (by omega)).mpr hpow1
    rw [pcAux, if_pos h1, Nat.sub_self]
    rfl
  | succ fuel ih =>
    intro j hj1 hjn hfj
    rcases Nat.eq_or_lt_of_le hjn with hjeq | hjlt
    · subst hjeq
      have h1 : jsMod p (ω ^ j) = 1 := (hval_one j (by omega)).mpr hpow1
      rw [pcAux, if_pos h1, Nat.sub_self]
      rfl
    · have hne1 : jsMod p (ω ^ j) ≠ 1 := by
        intro h1
        have := (hval_one j (by omega)).mp h1
        have hdvd := orderOf_dvd_of_pow_eq_one this
        rw [hord] at hdvd
        have := Nat.le_of_dvd (by omega) hdvd
        omega
      rw [pcAux, if_neg hne1]
      have hmul : mul p (jsMod p (ω ^ j)) ω = jsMod p (ω ^ (j + 1)) := by
        show jsMod p (jsMod p (ω ^ j) * ω) = jsMod p (ω ^ (j + 1))
        rw [jsMod_eq_emod p _ hp0, jsMod_eq_emod p _ hp0, jsMod_eq_emod p _ hp0,
          Int.mul_emod, Int.emod_emod_of_dvd _ dvd_rfl, ← Int.mul_emod, pow_succ]
      rw [hmul, ih (j + 1) (by omega) (by omega) (by omega)]
      have hrange : n - j = (n - (j + 1)) + 1 := by omega
      have hmapeq : (List.range (n - j)).map (fun t => jsMod p (ω ^ (j + t))) =
          jsMod p (ω ^ j) ::
            (List.range (n - (j + 1))).map (fun t => jsMod p (ω ^ (j + 1 + t))) := by
        rw [hrange, List.range_succ_eq_map, List.map_cons, List.map_map]
        congr 1
        apply List.map_congr_left
        intro t _
        show jsMod p (ω ^ (j + (t + 1))) = jsMod p (ω ^ (j + 1 + t))
        have h : j + (t + 1) = j + 1 + t := by omega
        rw [h]
      rw [hmapeq]
      rfl

theorem getPowerCycle_spec (p : ℕ) (hp1 : 1 < p) (n : ℕ) (ω : ℤ)
    (hω0 : 0 ≤ ω) (hω1 : ω < p)
    (hord : orderOf ((ω : ℤ) : ZMod p) = n) (hn : 0 < n)
    (fuel : ℕ) (hfuel : n ≤ fuel + 1) :
    getPowerCycle p ω fuel =
      some ((List.range n).map (fun t => jsMod p (ω ^ t))) := by
  have hp0 : 0 < p := by omega
  have hωfix : ω = jsMod p (ω ^ 1) := by
    rw [pow_one, jsMod_eq_of_range p ω hp0 hω0 hω1]
  rw [getPowerCycle]
  conv_lhs => rw [show (pcAux p ω fuel ω) = pcAux p ω fuel (jsMod p (ω ^ 1)) from
    by rw [← hωfix]]
  rw [pcAux_spec p hp1 n ω hω0 hω1 hord hn fuel 1 le_rfl (by omega) (by omega)]
  have hn1 : n = (n - 1) + 1 := by omega
  rw [Option.map_some']
  have hmap0 : (List.range n).map (fun t => jsMod p (ω ^ t)) =
      1 :: (List.range (n - 1)).map (fun t => jsMod p (ω ^ (1 + t))) := by
    conv_lhs => rw [hn1]
    rw [List.range_succ_eq_map, List.map_cons, List.map_map]
    congr 1
    · rw [pow_zero, jsMod_eq_of_range p 1 hp0 (by norm_num) (by exact_mod_cast hp1)]
    · apply List.map_congr_left
      intro t _
      show jsMod p (ω ^ (t + 1)) = jsMod p (ω ^ (1 + t))
      have h : t + 1 = 1 + t := by omega
      rw [h]
  rw [hmap0]

theorem powerCycle_getD (p : ℕ) (hp0 : 0 < p) (n : ℕ) (ω : ℤ) (m : ℕ)
    (hm : m < n) :
    (((List.range n).map (fun t => jsMod p (ω ^ t))).getD m 0 : ℤ) =
      jsMod p (ω ^ m) := by
  rw [getD_map_of_lt _ (List.range n) m 0 0 (by simpa using hm)]
  congr 1
  rw [getD_of_lt _ m 0 (by simpa using hm)]
  simp

theorem reversedRoots_getD_cast (p : ℕ) (hp0 : 0 < p) (roots : List ℤ) (n : ℕ)
    (hrlen : roots.length = n) (hn : 2 ≤ n) (w : ZMod p)
    (hw1 : w ^ n = 1)
    (hroots : ∀ m, m < n → ((roots.getD m 0 : ℤ) : ZMod p) = w ^ m) :
    (reversedRoots roots).length = n ∧
    ∀ m, m < n → (((reversedRoots roots).getD m 0 : ℤ) : ZMod p) =
      (w ^ (n - 1)) ^ m := by
  have hdl : (roots.drop 1).length = n - 1 := by simp [hrlen]
  have hrl : (roots.drop 1).reverse.length = n - 1 := by
    rw [List.length_reverse, hdl]
  constructor
  · show (1 :: (roots.drop 1).reverse).length = n
    rw [List.length_cons, hrl]
    omega
  · intro m hm
    match m with
    | 0 => simp [reversedRoots]
    | t + 1 =>
      have htn : t < n - 1 := by omega
      have ht' : t < (roots.drop 1).reverse.length := by omega
      have h1 : (roots.drop 1).reverse.getD t 0 = roots.getD (n - 1 - t) 0 := by
        rw [List.getD_eq_getElem?_getD, List.getD_eq_getElem?_getD,
          List.getElem?_reverse (by omega : t < (roots.drop 1).length),
          List.getElem?_drop]
        have hidx : 1 + ((roots.drop 1).length - 1 - t) = n - 1 - t := by
          rw [hdl]
          omega
        rw [hidx]
      show (((roots.drop 1).reverse.getD t 0 : ℤ) : ZMod p) = _
      rw [h1, hroots (n - 1 - t) (by omega), ← pow_mul]
      have hexp : (n - 1) * (t + 1) = n * t + (n - 1 - t) := by
        rcases Nat.exists_eq_add_of_le (show t + 1 ≤ n by omega) with ⟨u, hu⟩
        subst hu
        have e1 : t + 1 + u - 1 = t + u := by omega
        have e2 : t + u - t = u := by omega
        rw [e1, e2]
        ring
      rw [hexp, pow_add w _ _, pow_mul, hw1, one_pow, one_mul]

theorem evalPolyAtRoots_spec (p : ℕ) (hp0 : 0 < p) (k : ℕ) (hk : 2 ≤ k)
    (w : ZMod p) (hw1 : w ^ 2 ^ k = 1) (hwh : w ^ (2 ^ k / 2) = -1)
    (q roots : List ℤ) (hqlen : q.length ≤ 2 ^ k) (hrlen : roots.length = 2 ^ k)
    (hroots : ∀ m, m < 2 ^ k → ((roots.getD m 0 : ℤ) : ZMod p) = w ^ m) :
    ∃ vs, evalPolyAtRoots p q roots = .ok vs ∧ vs.length = 2 ^ k ∧
      (∀ e ∈ vs, 0 ≤ e ∧ e < p) ∧
      ∀ i, i < 2 ^ k → ((vs.getD i 0 : ℤ) : ZMod p) =
        (Finset.range (2 ^ k)).sum (fun j =>
          (((q ++ List.replicate (2 ^ k - q.length) 0).getD j 0 : ℤ) : ZMod p) *
            w ^ (i * j)) := by
  have hvlen : (q ++ List.replicate (2 ^ k - q.length) 0).length = 2 ^ k := by
    rw [List.length_append, List.length_replicate]
    omega
  obtain ⟨vs, hrun, hlen, hent, hsum⟩ := fastFF_spec p hp0 k w hw1 hwh
    (q ++ List.replicate (2 ^ k - q.length) 0) roots hvlen hrlen hroots
    (2 ^ k) 0 0 (by omega) (by have := Nat.lt_two_pow k; omega) (by norm_num)
  refine ⟨vs, ?_, ?_, hent, ?_⟩
  · rw [evalPolyAtRoots, if_neg (by omega), if_pos (by
      rw [hrlen, isPowerOfTwo_iff]
      exact ⟨k, rfl⟩), hrlen]
    exact hrun
  · rw [hlen, Nat.sub_zero]
  · intro i hi
    have h := hsum i (by rwa [Nat.sub_zero])
    rw [Nat.sub_zero] at h
    rw [h]
    apply Finset.sum_congr rfl
    intro j _
    rw [pow_zero, Nat.mul_one, Nat.mul_one, Nat.zero_add]

/-- C1 (corrected): for a prime `p`, `n = 2^k` with `k >= 2`, a canonical
primitive `n`-th root of unity `ω`, and a coefficient list `q` of length at
most `n` with canonical entries, `getPowerCycle` yields the `n` powers of `ω`
and `interpolateRoots ∘ evalPolyAtRoots` over that cycle reproduces `q`
zero-padded to length `n`.  (For `n = 1` and `n = 2` the pipeline instead
throws a TypeError: see the counterexample.) -/
theorem claim1_fft_roundtrip (p : ℕ) (hp : p.Prime) (k : ℕ) (hk : 2 ≤ k)
    (ω : ℤ) (hω0 : 0 ≤ ω) (hω1 : ω < p)
    (hord : orderOf ((ω : ℤ) : ZMod p) = 2 ^ k)
    (q : List ℤ) (hqlen : q.length ≤ 2 ^ k) (hq : ∀ e ∈ q, 0 ≤ e ∧ e < p) :
    ∃ cycle vs, getPowerCycle p ω (2 ^ k) = some cycle ∧
      evalPolyAtRoots p q cycle = .ok vs ∧
      interpolateRoots p cycle vs = .ok (q ++ List.replicate (2 ^ k - q.length) 0) := by
  haveI : Fact p.Prime := ⟨hp⟩
  have hp0 : 0 < p := hp.pos
  have hp1 : 1 < p := hp.one_lt
  have hn0 : 0 < 2 ^ k := Nat.pos_pow_of_pos k (by norm_num)
  set w : ZMod p := ((ω : ℤ) : ZMod p) with hwdef
  have hw1 : w ^ 2 ^ k = 1 := by
    rw [← hord]
    exact pow_orderOf_eq_one w
  have hwne : w ≠ 0 := by
    intro h0
    rw [h0, zero_pow (by omega)] at hw1
    exact zero_ne_one hw1
  have hnp : 2 ^ k < p := by
    have hFermat : w ^ (p - 1) = 1 := ZMod.pow_card_sub_one_eq_one hwne
    have hdvd := orderOf_dvd_of_pow_eq_one hFermat
    rw [hord] at hdvd
    have hle := Nat.le_of_dvd (by omega) hdvd
    omega
  have hhalf : 2 ^ k / 2 = 2 ^ (k - 1) := by
    have hks : (2 : ℕ) ^ k = 2 ^ (k - 1) * 2 := by
      rw [← pow_succ]
      congr 1
      omega
    rw [hks, Nat.mul_div_cancel _ (by norm_num)]
  have hhalfpos : 0 < 2 ^ k / 2 := by
    rw [hhalf]
    exact Nat.pos_pow_of_pos _ (by norm_num)
  have hx2 : w ^ (2 ^ k / 2) * w ^ (2 ^ k / 2) = 1 := by
    rw [← pow_add w _ _]
    have hdub : 2 ^ k / 2 + 2 ^ k / 2 = 2 ^ k := by
      rw [hhalf, ← Nat.two_mul, ← pow_succ']
      congr 1
      omega
    rw [hdub, hw1]
  have hxne : w ^ (2 ^ k / 2) ≠ 1 := by
    intro h1
    have hdvd := orderOf_dvd_of_pow_eq_one h1
    rw [hord] at hdvd
    have hle := Nat.le_of_dvd hhalfpos hdvd
    rw [hhalf] at hle
    have hlt : (2 : ℕ) ^ (k - 1) < 2 ^ k :=
      Nat.pow_lt_pow_right (by norm_num) (by omega)
    omega
  have hwh : w ^ (2 ^ k / 2) = -1 := by
    have h2 : (w ^ (2 ^ k / 2) - 1) * (w ^ (2 ^ k / 2) + 1) = 0 := by
      linear_combination hx2
    rcases mul_eq_zero.mp h2 with h3 | h3
    · exact absurd (sub_eq_zero.mp h3) hxne
    · linear_combination h3
  -- the power cycle
  have hcyc := getPowerCycle_spec p hp1 (2 ^ k) ω hω0 hω1 hord hn0 (2 ^ k)
    (by omega)
  set cycle : List ℤ := (List.range (2 ^ k)).map (fun t => jsMod p (ω ^ t))
    with hcycdef
  have hclen : cycle.length = 2 ^ k := by
    rw [hcycdef, List.length_map, List.length_range]
  have hcroots : ∀ m, m < 2 ^ k → ((cycle.getD m 0 : ℤ) : ZMod p) = w ^ m := by
    intro m hm
    rw [hcycdef, powerCycle_getD p hp0 (2 ^ k) ω m hm, cast_jsMod p _ hp0]
    push_cast
    rfl
  -- forward FFT
  obtain ⟨vs, hvs, hvslen, hvsent, hvssum⟩ := evalPolyAtRoots_spec p hp0 k hk
    w hw1 hwh q cycle hqlen hclen hcroots
  set values : List ℤ := q ++ List.replicate (2 ^ k - q.length) 0 with hvals
  have hvallen : values.length = 2 ^ k := by
    rw [hvals, List.length_append, List.length_replicate]
    omega
  have hvalent : ∀ e ∈ values, 0 ≤ e ∧ e < p := by
    intro e he
    rcases List.mem_append.mp he with h | h
    · exact hq e h
    · rw [List.eq_of_mem_replicate h]
      exact ⟨le_rfl, by exact_mod_cast hp0⟩
  -- the reversed roots are powers of w ^ (2^k - 1)
  obtain ⟨hrrlen, hrroots⟩ := reversedRoots_getD_cast p hp0 cycle (2 ^ k) hclen
    (by omega) w hw1 hcroots
  have hw'1 : (w ^ (2 ^ k - 1)) ^ 2 ^ k = 1 := by
    rw [← pow_mul, mul_comm, pow_mul, hw1, one_pow]
  have hw'h : (w ^ (2 ^ k - 1)) ^ (2 ^ k / 2) = -1 := by
    rw [← pow_mul]
    have hexp : (2 ^ k - 1) * (2 ^ k / 2) = (2 ^ k / 2 - 1) * 2 ^ k + 2 ^ k / 2 := by
      rcases Nat.exists_eq_add_of_le (show 1 ≤ 2 ^ k / 2 by omega) with ⟨u, hu⟩
      have hdub : 2 ^ k = 2 ^ k / 2 + 2 ^ k / 2 := by
        rw [hhalf, ← Nat.two_mul, ← pow_succ']
        congr 1
        omega
      rw [hu] at hdub
      rw [hu, hdub]
      have e1 : 1 + u + (1 + u) - 1 = 1 + 2 * u := by omega
      have e2 : 1 + u - 1 = u := by omega
      rw [e1, e2]
      ring
    rw [hexp, pow_add w _ _, pow_mul', hw1, one_pow, one_mul, hwh]
  -- inverse FFT
  obtain ⟨out2, hout2run, hout2len, hout2ent, hout2sum⟩ := fastFF_spec p hp0 k
    (w ^ (2 ^ k - 1)) hw'1 hw'h vs (reversedRoots cycle) hvslen hrrlen hrroots
    (2 ^ k) 0 0 (by omega) (by have := Nat.lt_two_pow k; omega) (by norm_num)
  have hout2sum' : ∀ i, i < 2 ^ k → ((out2.getD i 0 : ℤ) : ZMod p) =
      (Finset.range (2 ^ k)).sum
        (fun j => ((vs.getD j 0 : ℤ) : ZMod p) * (w ^ (2 ^ k - 1)) ^ (i * j)) := by
    intro i hi
    have h := hout2sum i (by rwa [Nat.sub_zero])
    rw [Nat.sub_zero] at h
    rw [h]
    apply Finset.sum_congr rfl
    intro j _
    rw [pow_zero, Nat.mul_one, Nat.mul_one, Nat.zero_add]
  have hout2len' : out2.length = 2 ^ k := by rwa [Nat.sub_zero] at hout2len
  -- invlen
  have hnhatne : ((2 ^ k : ℕ) : ZMod p) ≠ 0 := by
    intro h0
    have hdvd := (ZMod.natCast_zmod_eq_zero_iff_dvd _ _).mp h0
    have := Nat.le_of_dvd hn0 hdvd
    omega
  have hfermatn : ((2 ^ k : ℕ) : ZMod p) ^ (p - 1) = 1 :=
    ZMod.pow_card_sub_one_eq_one hnhatne
  set invlen : ℤ := jsMod p (((2 ^ k : ℕ) : ℤ) ^ (p - 2)) with hinvdef
  have hexpok : exp p ((2 ^ k : ℕ) : ℤ) ((p : ℤ) - 2) = .ok invlen := by
    rw [exp_ok_val p hp _ _ (by positivity) (by exact_mod_cast hnp) (by omega)
      (by
        intro hcontra
        have h1 := hcontra.1
        have h2 : (0 : ℤ) < ((2 ^ k : ℕ) : ℤ) := by positivity
        omega)]
    have htn : ((p : ℤ) - 2).toNat = p - 2 := by omega
    rw [htn]
  have hinvcast : ((invlen : ℤ) : ZMod p) = ((2 ^ k : ℕ) : ZMod p) ^ (p - 2) := by
    rw [hinvdef, cast_jsMod p _ hp0, Int.cast_pow, Int.cast_natCast]
  have hmulinv : ((2 ^ k : ℕ) : ZMod p) * ((invlen : ℤ) : ZMod p) = 1 := by
    rw [hinvcast, mul_comm, ← pow_succ]
    have hsucc : p - 2 + 1 = p - 1 := by omega
    rw [hsucc, hfermatn]
  -- the run of interpolateRoots
  set final : List ℤ := out2.map (fun r => jsMod p (r * invlen)) with hfinaldef
  have hrun : interpolateRoots p cycle vs = .ok final := by
    rw [interpolateRoots, if_neg (by rw [hclen, hvslen]; exact not_ne_iff.mpr rfl),
      if_pos (by rw [hclen, isPowerOfTwo_iff]; exact ⟨k, rfl⟩), hvslen, hexpok]
    show (fastFF p vs (reversedRoots cycle) cycle.length 0 0).bind _ = _
    rw [hclen, hout2run]
    rfl
  -- orthogonality
  have hinner : ∀ l j, l < 2 ^ k → j < 2 ^ k →
      (Finset.range (2 ^ k)).sum
        (fun i => w ^ (i * l) * (w ^ (2 ^ k - 1)) ^ (j * i)) =
      if l = j then ((2 ^ k : ℕ) : ZMod p) else 0 := by
    intro l j hl hj
    have hterm : ∀ i : ℕ, w ^ (i * l) * (w ^ (2 ^ k - 1)) ^ (j * i) =
        (w ^ (l + (2 ^ k - 1) * j)) ^ i := by
      intro i
      rw [← pow_mul, ← pow_add w _ _, ← pow_mul]
      congr 1
      ring
    rw [Finset.sum_congr rfl (fun i _ => hterm i)]
    by_cases hlj : l = j
    · subst hlj
      have hbase : w ^ (l + (2 ^ k - 1) * l) = 1 := by
        have hexp2 : l + (2 ^ k - 1) * l = 2 ^ k * l := by
          rcases Nat.exists_eq_add_of_le (show 1 ≤ 2 ^ k by omega) with ⟨u, hu⟩
          rw [hu]
          have e1 : 1 + u - 1 = u := by omega
          rw [e1]
          ring
        rw [hexp2, pow_mul, hw1, one_pow]
      rw [if_pos rfl, Finset.sum_congr rfl (fun i _ => by rw [hbase, one_pow]),
        Finset.sum_const, Finset.card_range, nsmul_eq_mul, mul_one]
    · rw [if_neg hlj]
      have hζn : (w ^ (l + (2 ^ k - 1) * j)) ^ 2 ^ k = 1 := by
        rw [← pow_mul, mul_comm, pow_mul, hw1, one_pow]
      have hζne : w ^ (l + (2 ^ k - 1) * j) ≠ 1 := by
        intro h1
        have hdvd := orderOf_dvd_of_pow_eq_one h1
        rw [hord] at hdvd
        obtain ⟨c, hc⟩ := hdvd
        have hc' : (l : ℤ) + (((2 ^ k : ℕ) : ℤ) - 1) * (j : ℤ) =
            ((2 ^ k : ℕ) : ℤ) * (c : ℤ) := by
          zify [show 1 ≤ 2 ^ k by omega] at hc
          exact_mod_cast hc
        have hdvd2 : ((2 ^ k : ℕ) : ℤ) ∣ ((l : ℤ) - (j : ℤ)) := by
          refine ⟨(c : ℤ) - (j : ℤ), ?_⟩
          linear_combination hc'
        have habs : |(l : ℤ) - (j : ℤ)| < ((2 ^ k : ℕ) : ℤ) :=
          abs_lt.mpr ⟨by omega, by omega⟩
        have hz := Int.eq_zero_of_abs_lt_dvd hdvd2 habs
        apply hlj
        omega
      rw [geom_sum_eq hζne, hζn, sub_self, zero_div]
  -- the per-index value of the final list
  have hfinal_getD : ∀ j, j < 2 ^ k →
      final.getD j 0 = jsMod p (out2.getD j 0 * invlen) := by
    intro j hj
    rw [hfinaldef, getD_map_of_lt _ out2 j 0 0 (by omega)]
  have hcast_final : ∀ j, j < 2 ^ k →
      ((final.getD j 0 : ℤ) : ZMod p) = ((values.getD j 0 : ℤ) : ZMod p) := by
    intro j hj
    rw [hfinal_getD j hj, cast_jsMod p _ hp0]
    push_cast
    rw [hout2sum' j hj]
    have hstep1 : (Finset.range (2 ^ k)).sum
        (fun i => ((vs.getD i 0 : ℤ) : ZMod p) * (w ^ (2 ^ k - 1)) ^ (j * i)) =
        (Finset.range (2 ^ k)).sum (fun i => (Finset.range (2 ^ k)).sum
          (fun l => ((values.getD l 0 : ℤ) : ZMod p) * w ^ (i * l) *
            (w ^ (2 ^ k - 1)) ^ (j * i))) := by
      apply Finset.sum_congr rfl
      intro i hi
      rw [hvssum i (Finset.mem_range.mp hi), Finset.sum_mul]
    have hstep2 : (Finset.range (2 ^ k)).sum (fun i => (Finset.range (2 ^ k)).sum
          (fun l => ((values.getD l 0 : ℤ) : ZMod p) * w ^ (i * l) *
            (w ^ (2 ^ k - 1)) ^ (j * i))) =
        (Finset.range (2 ^ k)).sum (fun l => ((values.getD l 0 : ℤ) : ZMod p) *
          (Finset.range (2 ^ k)).sum
            (fun i => w ^ (i * l) * (w ^ (2 ^ k - 1)) ^ (j * i))) := by
      rw [Finset.sum_comm]
      apply Finset.sum_congr rfl
      intro l _
      rw [Finset.mul_sum]
      apply Finset.sum_congr rfl
      intro i _
      ring
    have hstep3 : (Finset.range (2 ^ k)).sum
        (fun l => ((values.getD l 0 : ℤ) : ZMod p) *
          (Finset.range (2 ^ k)).sum
            (fun i => w ^ (i * l) * (w ^ (2 ^ k - 1)) ^ (j * i))) =
        ((values.getD j 0 : ℤ) : ZMod p) * ((2 ^ k : ℕ) : ZMod p) := by
      rw [Finset.sum_congr rfl (fun l hl =>
        by rw [hinner l j (Finset.mem_range.mp hl) hj])]
      rw [Finset.sum_eq_single j]
      · rw [if_pos rfl]
      · intro b _ hbj
        rw [if_neg hbj, mul_zero]
      · intro hnot
        exact absurd (Finset.mem_range.mpr hj) hnot
    rw [hstep1, hstep2, hstep3, mul_assoc, hmulinv, mul_one]
  -- final equals the padded q
  have hfinlen : final.length = 2 ^ k := by
    rw [hfinaldef, List.length_map, hout2len']
  have hfineq : final = values := by
    apply list_eq_of_getD final values (by rw [hfinlen, hvallen])
    intro i hi
    have hik : i < 2 ^ k := by rwa [hfinlen] at hi
    have hvrange : 0 ≤ values.getD i 0 ∧ values.getD i 0 < p := by
      rw [getD_of_lt values i 0 (by omega)]
      exact hvalent _ (List.get_mem values i (by omega))
    apply eq_of_cast_eq p _ _ ?_ ?_ hvrange.1 hvrange.2 (hcast_final i hik)
    · rw [hfinal_getD i hik]
      exact jsMod_nonneg p _ hp0
    · rw [hfinal_getD i hik]
      exact jsMod_lt p _ hp0
  exact ⟨cycle, vs, hcyc, hvs, by rw [hrun, hfineq]⟩

/-- Counterexample to C1 as stated: for the power-of-two order `n = 1`
(prime `p = 5`, primitive first root of unity `ω = 1`, polynomial `q = [3]`),
the cycle is `[1]` but `evalPolyAtRoots` throws a TypeError instead of
producing values to interpolate, because `fastFF` always runs a 4-point base
transform and reads `values[1]`, `values[2]`, `values[3]` out of range. -/
theorem claim1_counterexample :
    getPowerCycle 5 1 1 = some [1] ∧
    evalPolyAtRoots 5 [3] [1] = Except.error "TypeError" :=
  ⟨rfl, rfl⟩

/-- Witness for C1 at `p = 5`, `k = 2`, `ω = 2`, `q = [3, 1]`. -/
theorem claim1_witness :
    ∃ cycle vs, getPowerCycle 5 2 (2 ^ 2) = some cycle ∧
      evalPolyAtRoots 5 [3, 1] cycle = .ok vs ∧
      interpolateRoots 5 cycle vs =
        .ok ([3, 1] ++ List.replicate (2 ^ 2 - ([3, 1] : List ℤ).length) 0) :=
  claim1_fft_roundtrip 5 (by norm_num) 2 le_rfl 2 (by norm_num) (by norm_num)
    (by
      rw [orderOf_eq_iff (by norm_num)]
      exact ⟨by decide, by decide⟩) [3, 1]
    (by norm_num) (by decide)

/-- C8 (corrected): `evalPolyAtRoots([c], roots)` on a length-1 domain never
returns `[c]`: the 4-point base case of `fastFF` unconditionally reads
`values[offset + step]` (= `values[1]`), which is `undefined` for the
length-1 values array, so the call throws a TypeError. -/
theorem claim8_len1_typeError (p : ℕ) (c r : ℤ) :
    evalPolyAtRoots p [c] [r] = .error "TypeError" := by
  rw [evalPolyAtRoots, if_neg (by simp), if_pos (by
    rw [isPowerOfTwo_iff]
    exact ⟨0, rfl⟩)]
  have h1 : ([r] : List ℤ).length = 1 := rfl
  have h2 : ([c] : List ℤ).length = 1 := rfl
  rw [h1, h2]
  show fastFF p ([c] ++ List.replicate (1 - 1) 0) [r] (0 + 1) 0 0 = _
  rw [fastFF, if_pos (by norm_num)]
  rfl

/-- Counterexample to C8 as stated: concretely, `evalPolyAtRoots(7, [4], [1])`
throws a TypeError rather than returning `[4]`. -/
theorem claim8_counterexample :
    evalPolyAtRoots 7 [4] [1] = Except.error "TypeError" :=
  rfl

end Galois
